import Mathlib

/-!
# SurfStore: metadata store, block store and client synchronisation

A shallow embedding of `pkg/surfstore` (`MetaStore.go`, `BlockStore.go`,
`SurfstoreUtils.go`, `SurfstoreRPCClient.go`).

Conventions of the embedding:

* a Go `map[string]*T` is a function `String → Option T`; a field holding a map
  is an `Option` of such a function, `none` being the nil map (reads of a nil
  map find nothing, a write to it is a run-time panic);
* a Go `[]string` is an `Option (List String)`, `none` being the nil slice;
* `int32` values are integers, and `int32` arithmetic wraps modulo `2^32`;
* a function that can panic returns an `Option`, `none` being the panic;
* `error` results are `Option GoError`, `none` being the nil error.
-/

namespace Surfstore

/-! ## Machine integers -/

/-- Two's-complement wrap of an integer into the `int32` range. -/
def wrapInt32 (x : Int) : Int := (x + 2147483648) % 4294967296 - 2147483648

/-- The integer is a value of Go's `int32`. -/
def isInt32 (x : Int) : Prop := -2147483648 ≤ x ∧ x ≤ 2147483647

instance (x : Int) : Decidable (isInt32 x) := by
  unfold isInt32; infer_instance

/-- Go's `a - b` on `int32`. -/
def int32Sub (a b : Int) : Int := wrapInt32 (a - b)

/-- Go's `a + b` on `int32`. -/
def int32Add (a b : Int) : Int := wrapInt32 (a + b)

/-! ## Slices and maps -/

/-- A Go slice: `none` is the nil slice, `some l` a non-nil slice with elements `l`. -/
abbrev GoSlice (α : Type) := Option (List α)

/-- The elements of a slice, in order (`range` over the slice). -/
def GoSlice.toList {α : Type} : GoSlice α → List α
  | none => []
  | some l => l

/-- Go's `len(s)`. -/
def GoSlice.len {α : Type} (s : GoSlice α) : Nat := s.toList.length

/-- Go's `append(s, x)`: the result is never nil. -/
def GoSlice.append {α : Type} (s : GoSlice α) (x : α) : GoSlice α := some (s.toList ++ [x])

/-- A non-nil Go map with string keys. -/
abbrev GoMap (α : Type) := String → Option α

/-- The map literal `map[string]*T{}`. -/
def GoMap.empty {α : Type} : GoMap α := fun _ => none

/-- The assignment `m[k] = v` on a non-nil map. -/
def GoMap.set {α : Type} (m : GoMap α) (k : String) (v : α) : GoMap α :=
  fun k' => if k' = k then some v else m k'

/-! ## Messages -/

/-- The errors the package produces: the two values `ctx.Err()` can take, and
`errors.New("incorrect version")`. -/
inductive GoError where
  | contextCanceled
  | contextDeadlineExceeded
  | incorrectVersion
  deriving DecidableEq, Repr

/-- A `context.Context`, reduced to what the package reads of it: `ctx.Err()`. -/
structure Context where
  Err : Option GoError
  deriving DecidableEq, Repr

/-- Message `FileMetaData`. -/
structure FileMetaData where
  Filename : String
  Version : Int
  BlockHashList : GoSlice String
  deriving DecidableEq, Repr

/-- Message `Version`. -/
structure Version where
  Version : Int
  deriving DecidableEq, Repr

/-- Message `FileInfoMap`. -/
structure FileInfoMap where
  FileInfoMap : GoMap FileMetaData

/-- Message `Block`. -/
structure Block where
  BlockData : List UInt8
  BlockSize : Int
  deriving DecidableEq, Repr

/-- Message `BlockHash`. -/
structure BlockHash where
  Hash : String
  deriving DecidableEq, Repr

/-- Message `BlockHashes`. -/
structure BlockHashes where
  Hashes : List String
  deriving DecidableEq, Repr

/-- Message `Success`. -/
structure Success where
  Flag : Bool
  deriving DecidableEq, Repr

/-! ## MetaStore.go -/

/-- The server's metadata store. The `Mutex` field is left out: `NewMetaStore`
does not set it and no method reads it. -/
structure MetaStore where
  FileMetaMap : Option (GoMap FileMetaData)
  BlockStoreAddr : String

/-- The read `m.FileMetaMap[filename]` with its `ok` flag; a nil map has no entry. -/
def MetaStore.lookup (m : MetaStore) (filename : String) : Option FileMetaData :=
  match m.FileMetaMap with
  | none => none
  | some mp => mp filename

/-- The write `m.FileMetaMap[filename] = fileMetaData`; it panics on a nil map. -/
def MetaStore.assign (m : MetaStore) (filename : String) (fileMetaData : FileMetaData) :
    Option MetaStore :=
  match m.FileMetaMap with
  | none => none
  | some mp => some { m with FileMetaMap := some (mp.set filename fileMetaData) }

/-- `NewMetaStore`. -/
def NewMetaStore (blockStoreAddr : String) : MetaStore :=
  { FileMetaMap := some GoMap.empty, BlockStoreAddr := blockStoreAddr }

/-- `MetaStore.GetFileInfoMap`. -/
def MetaStore.GetFileInfoMap (m : MetaStore) (ctx : Context) :
    Option FileInfoMap × Option GoError :=
  match m.FileMetaMap with
  | none => (none, ctx.Err)
  | some mp => (some { FileInfoMap := mp }, none)

/-- What a call of `MetaStore.UpdateFile` leaves behind: the two return values
and the store after the call. -/
structure UpdateFileReturn where
  version : Option Version
  err : Option GoError
  store : MetaStore

/-- `MetaStore.UpdateFile`. -/
def MetaStore.UpdateFile (m : MetaStore) (_ctx : Context) (fileMetaData : FileMetaData) :
    Option UpdateFileReturn :=
  let filename := fileMetaData.Filename
  match m.lookup filename with
  | some currMetadata =>
    if int32Sub fileMetaData.Version currMetadata.Version = 1 then
      (m.assign filename fileMetaData).map fun m' =>
        { version := some { Version := fileMetaData.Version }, err := none, store := m' }
    else
      some { version := none, err := some GoError.incorrectVersion, store := m }
  | none =>
    (m.assign filename fileMetaData).map fun m' =>
      { version := some { Version := fileMetaData.Version }, err := none, store := m' }

/-- `MetaStore.GetBlockStoreAddr`. -/
def MetaStore.GetBlockStoreAddr (m : MetaStore) (_ctx : Context) : String × Option GoError :=
  (m.BlockStoreAddr, none)

/-! ## BlockStore.go

`GetBlockHashString` is defined outside the files embedded here; every
definition that uses it takes it as its first argument. -/

/-- The server's block store. The `Mutex` field is left out: `NewBlockStore`
does not set it and no method reads it. -/
structure BlockStore where
  BlockMap : Option (GoMap Block)

/-- The read `bs.BlockMap[hash]` with its `ok` flag; a nil map has no entry. -/
def BlockStore.lookup (bs : BlockStore) (hash : String) : Option Block :=
  match bs.BlockMap with
  | none => none
  | some mp => mp hash

/-- The write `bs.BlockMap[hashString] = block`; it panics on a nil map. -/
def BlockStore.assign (bs : BlockStore) (hashString : String) (block : Block) :
    Option BlockStore :=
  match bs.BlockMap with
  | none => none
  | some mp => some { BlockMap := some (mp.set hashString block) }

/-- `NewBlockStore`. -/
def NewBlockStore : BlockStore := { BlockMap := some GoMap.empty }

/-- `BlockStore.GetBlock`. -/
def BlockStore.GetBlock (bs : BlockStore) (ctx : Context) (blockHash : BlockHash) :
    Option Block × Option GoError :=
  match bs.lookup blockHash.Hash with
  | some blockVal => (some blockVal, none)
  | none => (none, ctx.Err)

/-- What a call of `BlockStore.PutBlock` leaves behind: the two return values
and the store after the call. -/
structure PutBlockReturn where
  success : Success
  err : Option GoError
  store : BlockStore

/-- `BlockStore.PutBlock`; the argument `none` is the nil block. -/
def BlockStore.PutBlock (GetBlockHashString : List UInt8 → String) (bs : BlockStore)
    (ctx : Context) (block : Option Block) : Option PutBlockReturn :=
  match block with
  | none => some { success := { Flag := false }, err := ctx.Err, store := bs }
  | some b =>
    let hashString := GetBlockHashString b.BlockData
    (bs.assign hashString b).map fun bs' =>
      { success := { Flag := true }, err := none, store := bs' }

/-- The loop of `BlockStore.HasBlocks` over the input hashes. -/
def BlockStore.hasBlocksLoop (bs : BlockStore) : List String → List String → List String
  | [], blockExist => blockExist
  | hash :: rest, blockExist =>
    match bs.lookup hash with
    | some _ => bs.hasBlocksLoop rest (blockExist ++ [hash])
    | none => bs.hasBlocksLoop rest blockExist

/-- `BlockStore.HasBlocks`; the argument `none` is the nil message. The output
list starts as `make([]string, len(hashList))`, a list of `len(hashList)` empty
strings, to which the loop appends. -/
def BlockStore.HasBlocks (bs : BlockStore) (ctx : Context) (blockHashesIn : Option BlockHashes) :
    Option BlockHashes × Option GoError :=
  match blockHashesIn with
  | none => (none, ctx.Err)
  | some inp =>
    let hashList := inp.Hashes
    let blockExist := List.replicate hashList.length ""
    (some { Hashes := bs.hasBlocksLoop hashList blockExist }, none)

/-! ## SurfstoreRPCClient.go and SurfstoreUtils.go

The client reaches the two stores through gRPC. The embedding takes a run in
which every connection and every call goes through: a call of the client is the
call of the server's method on the message the client sent, and what the
server returns is what the client receives. A nil message pointer is sent as
the empty message.

`LoadMetaFromMetaFile`, `ConcatPath` and `GetBlockHashString` are defined
outside the files embedded here: the two maps `LoadMetaFromMetaFile` returns
are arguments of the embedding, and so is `GetBlockHashString`. -/

/-- `RPCClient`. -/
structure RPCClient where
  MetaStoreAddrs : List String
  BaseDir : String
  BlockSize : Int

/-- The state `ClientSync` works on.

* `files`: the regular files of the base directory other than `index.txt`, by name;
* `indexLines`: what was written to `index.txt` through `indFile`, in order;
* `updateFileCalls`: the arguments of the calls of `client.UpdateFile`, in order;
* `metaStore`, `blockStore`: the server's two stores. -/
structure World where
  files : GoMap (List UInt8)
  indexLines : List String
  updateFileCalls : List FileMetaData
  metaStore : MetaStore
  blockStore : BlockStore

/-- The removal of a key from a map (`os.Remove` on the map of files). -/
def GoMap.remove {α : Type} (m : GoMap α) (k : String) : GoMap α :=
  fun k' => if k' = k then none else m k'

/-- The loop of `IsBlockHashListModified` over the indices of `hashList1`, run
when both lists have the same length. -/
def hashListsDiffer : List String → List String → Bool
  | x :: xs, y :: ys => if x ≠ y then true else hashListsDiffer xs ys
  | _, _ => false

/-- `IsBlockHashListModified`. -/
def IsBlockHashListModified (hashList1 hashList2 : GoSlice String) : Bool :=
  if (hashList1.isNone != hashList2.isNone) || (hashList1.len != hashList2.len) then
    true
  else
    hashListsDiffer hashList1.toList hashList2.toList

/-- `f.Read(buf)` on a regular file with `rest` left to read and a buffer of
`size` bytes: the number of bytes read, and whether an error (end of file) is
returned. A buffer of no bytes reads nothing and returns no error. -/
def fileRead (size : Nat) (rest : List UInt8) : Nat × Bool :=
  if size = 0 then (0, false)
  else if rest.isEmpty then (0, true)
  else (min size rest.length, false)

/-- The block-reading loop of `ClientSync` for one file: `rest` is what is left
to read, `newBlockHashList` and `clientBlockMap` are the two accumulators. The
first argument bounds the number of iterations; the result is `none` when the
bound is reached (with `BlockSize` 0 the loop never ends) and when `make`
panics on a negative `BlockSize`. -/
def readBlocks (GetBlockHashString : List UInt8 → String) (BlockSize : Int) :
    Nat → List UInt8 → GoSlice String → GoMap Block → Option (GoSlice String × GoMap Block)
  | 0, _, _, _ => none
  | fuel + 1, rest, newBlockHashList, clientBlockMap =>
    if BlockSize < 0 then none
    else
      let r := fileRead BlockSize.toNat rest
      if r.2 then some (newBlockHashList, clientBlockMap)
      else
        let newBlock : Block :=
          { BlockData := rest.take r.1, BlockSize := wrapInt32 (r.1 : Int) }
        let encodedHash := GetBlockHashString newBlock.BlockData
        readBlocks GetBlockHashString BlockSize fuel (rest.drop r.1)
          (newBlockHashList.append encodedHash) (clientBlockMap.set encodedHash newBlock)

/-- The candidate `newFileMetaData` that the scan of `ClientSync` builds for a
file from its block hash list and the local index. -/
def scanCandidate (localIndexFileMetaMap : GoMap FileMetaData) (filename : String)
    (newBlockHashList : GoSlice String) : FileMetaData :=
  { Filename := filename
    Version :=
      match localIndexFileMetaMap filename with
      | some fLoc =>
        if IsBlockHashListModified newBlockHashList fLoc.BlockHashList then
          int32Add fLoc.Version 1
        else fLoc.Version
      | none => 1
    BlockHashList := newBlockHashList }

/-- The three maps the scan of `ClientSync` fills; `allFileMetaMap`, a set of
names, is the list of its keys in the order the final loop ranges over them. -/
structure ScanState where
  clientMetaMap : GoMap FileMetaData
  clientBlockMap : GoMap Block
  allFileMetaMap : List String

/-- The insertion `allFileMetaMap[filename] = true` when the name is not in the set. -/
def addName (allFileMetaMap : List String) (filename : String) : List String :=
  if filename ∈ allFileMetaMap then allFileMetaMap else allFileMetaMap ++ [filename]

/-- The body of the scan loop of `ClientSync` for one name of the directory
listing; a name that cannot be opened reads as a file without bytes. -/
def scanFile (GetBlockHashString : List UInt8 → String) (client : RPCClient) (fuel : Nat)
    (localIndexFileMetaMap : GoMap FileMetaData) (files : GoMap (List UInt8))
    (st : ScanState) (filename : String) : Option ScanState :=
  if filename = "index.txt" then some st
  else
    match readBlocks GetBlockHashString client.BlockSize fuel ((files filename).getD [])
        none st.clientBlockMap with
    | none => none
    | some (newBlockHashList, clientBlockMap) =>
      some
        { clientMetaMap := st.clientMetaMap.set filename
            (scanCandidate localIndexFileMetaMap filename newBlockHashList)
          clientBlockMap := clientBlockMap
          allFileMetaMap := addName st.allFileMetaMap filename }

/-- The scan loop of `ClientSync` over the directory listing. -/
def scanDir (GetBlockHashString : List UInt8 → String) (client : RPCClient) (fuel : Nat)
    (localIndexFileMetaMap : GoMap FileMetaData) (files : GoMap (List UInt8)) :
    List String → ScanState → Option ScanState
  | [], st => some st
  | filename :: rest, st =>
    match scanFile GetBlockHashString client fuel localIndexFileMetaMap files st filename with
    | none => none
    | some st' => scanDir GetBlockHashString client fuel localIndexFileMetaMap files rest st'

/-- `RPCClient.PutBlock`, the success flag being dropped as `ClientSync` drops
it: the server's `PutBlock` on the block sent, a nil block being sent as the
empty block. The result is the block store after the call. -/
def RPCClient.PutBlock (GetBlockHashString : List UInt8 → String) (ctx : Context)
    (bs : BlockStore) (block : Option Block) : Option BlockStore :=
  (bs.PutBlock GetBlockHashString ctx
    (some (block.getD { BlockData := [], BlockSize := 0 }))).map PutBlockReturn.store

/-- The loop of `ClientSync` that uploads the blocks of a candidate. -/
def putBlocks (GetBlockHashString : List UInt8 → String) (ctx : Context)
    (clientBlockMap : GoMap Block) : List String → BlockStore → Option BlockStore
  | [], bs => some bs
  | blockHash :: rest, bs =>
    match RPCClient.PutBlock GetBlockHashString ctx bs (clientBlockMap blockHash) with
    | none => none
    | some bs' => putBlocks GetBlockHashString ctx clientBlockMap rest bs'

/-- `RPCClient.GetBlock` into a zero-valued `blockToGet`: the block the server
returns, or the zero-valued block when the server returns none. -/
def RPCClient.GetBlock (ctx : Context) (bs : BlockStore) (blockHash : String) : Block :=
  ((bs.GetBlock ctx { Hash := blockHash }).1).getD { BlockData := [], BlockSize := 0 }

/-- The bytes the download loop of `ClientSync` writes to the truncated file:
for every hash of the list in order, the data of the block `GetBlock` gave. -/
def downloadBytes (ctx : Context) (bs : BlockStore) (blockHashList : List String) :
    List UInt8 :=
  (blockHashList.map fun blockHash => (RPCClient.GetBlock ctx bs blockHash).BlockData).flatten

/-- The test `len(fServer.BlockHashList) == 1 && fServer.BlockHashList[0] == "0"`. -/
def isTombstone (blockHashList : GoSlice String) : Bool :=
  match blockHashList.toList with
  | [h] => h == "0"
  | _ => false

/-- The line `ClientSync` writes to `index.txt` for a record. -/
def indexLine (fname : String) (version : Int) (blockHashList : GoSlice String) : String :=
  fname ++ "," ++ toString version ++ "," ++ " ".intercalate blockHashList.toList ++ "\n"

/-- The download of the server's record `fServer` for `fname` in `ClientSync`
(the same steps in the conflict branch and in the remote-only branch), and the
write of the record's line to `index.txt` that follows it. -/
def pullFile (ctx : Context) (w : World) (fname : String) (fServer : FileMetaData) : World :=
  let files :=
    if isTombstone fServer.BlockHashList then w.files.remove fname
    else w.files.set fname (downloadBytes ctx w.blockStore fServer.BlockHashList.toList)
  { w with
    files := files
    indexLines := w.indexLines ++ [indexLine fname fServer.Version fServer.BlockHashList] }

/-- The record `ClientSync` passes to `UpdateFile` for `fname`: the scan's
candidate when the file is in the base directory, the tombstone when it is only
in the local index, none when it is in neither. -/
def pushCandidate (clientMetaMap localIndexFileMetaMap : GoMap FileMetaData)
    (fname : String) : Option FileMetaData :=
  match clientMetaMap fname with
  | some fBasedDir => some fBasedDir
  | none =>
    match localIndexFileMetaMap fname with
    | some fLocalIndex =>
      some { Filename := fname, Version := int32Add fLocalIndex.Version 1,
             BlockHashList := some ["0"] }
    | none => none

/-- The body of the final loop of `ClientSync` for one name. The result is
`none` when the run panics: on a write to a nil map in a store, and on the read
of `fServer.BlockHashList` when `UpdateFile` failed and the remote snapshot has
no record for the name. -/
def reconcileFile (GetBlockHashString : List UInt8 → String) (ctx : Context)
    (clientMetaMap : GoMap FileMetaData) (clientBlockMap : GoMap Block)
    (localIndexFileMetaMap remoteFileInfoMap : GoMap FileMetaData)
    (w : World) (fname : String) : Option World :=
  match pushCandidate clientMetaMap localIndexFileMetaMap fname with
  | some newFileMetaData =>
    let uploaded :=
      match clientMetaMap fname with
      | some _ =>
        putBlocks GetBlockHashString ctx clientBlockMap newFileMetaData.BlockHashList.toList
          w.blockStore
      | none => some w.blockStore
    match uploaded with
    | none => none
    | some bs =>
      match w.metaStore.UpdateFile ctx newFileMetaData with
      | none => none
      | some r =>
        let w1 : World :=
          { w with blockStore := bs, metaStore := r.store,
                   updateFileCalls := w.updateFileCalls ++ [newFileMetaData] }
        match r.err with
        | some _ =>
          match remoteFileInfoMap fname with
          | none => none
          | some fServer => some (pullFile ctx w1 fname fServer)
        | none =>
          some { w1 with
            indexLines := w1.indexLines ++
              [indexLine fname newFileMetaData.Version newFileMetaData.BlockHashList] }
  | none =>
    match remoteFileInfoMap fname with
    | some fServer => some (pullFile ctx w fname fServer)
    | none => some w

/-- The final loop of `ClientSync` over the names of `allFileMetaMap`. -/
def reconcileAll (GetBlockHashString : List UInt8 → String) (ctx : Context)
    (clientMetaMap : GoMap FileMetaData) (clientBlockMap : GoMap Block)
    (localIndexFileMetaMap remoteFileInfoMap : GoMap FileMetaData) :
    List String → World → Option World
  | [], w => some w
  | fname :: rest, w =>
    match reconcileFile GetBlockHashString ctx clientMetaMap clientBlockMap
        localIndexFileMetaMap remoteFileInfoMap w fname with
    | none => none
    | some w' =>
      reconcileAll GetBlockHashString ctx clientMetaMap clientBlockMap
        localIndexFileMetaMap remoteFileInfoMap rest w'

/-- `RPCClient.GetFileInfoMap` into the empty map `remoteFileInfoMap`: the map
the server returns, a nil map reading as the empty one. -/
def RPCClient.GetFileInfoMap (ctx : Context) (m : MetaStore) : GoMap FileMetaData :=
  match (m.GetFileInfoMap ctx).1 with
  | some fim => fim.FileInfoMap
  | none => GoMap.empty

/-- `ClientSync`. Its arguments beside the client and the state:

* `fuel`: the bound on the iterations of each block-reading loop;
* `list`: the directory listing `dir.Readdirnames(0)`;
* `localIndexFileMetaMap`, `allFileMetaMap`: the two maps of `LoadMetaFromMetaFile`;
* `remoteKeys`: the keys of the remote snapshot in the order `range` visits them. -/
def ClientSync (GetBlockHashString : List UInt8 → String) (ctx : Context)
    (client : RPCClient) (fuel : Nat) (list : List String)
    (localIndexFileMetaMap : GoMap FileMetaData) (allFileMetaMap : List String)
    (remoteKeys : List String) (w : World) : Option World :=
  match scanDir GetBlockHashString client fuel localIndexFileMetaMap w.files list
      { clientMetaMap := GoMap.empty, clientBlockMap := GoMap.empty,
        allFileMetaMap := allFileMetaMap } with
  | none => none
  | some st =>
    let remoteFileInfoMap := RPCClient.GetFileInfoMap ctx w.metaStore
    let names := remoteKeys.foldl addName st.allFileMetaMap
    reconcileAll GetBlockHashString ctx st.clientMetaMap st.clientBlockMap
      localIndexFileMetaMap remoteFileInfoMap names w

/-! ## Two calls of `UpdateFile` at the same time

The gRPC server runs every call of a method in a goroutine of its own.
`UpdateFile` takes no lock (the `Mutex` field of the store is nil and is never
locked), so between the statement of one call that reads the map and its
statement that writes it, statements of another call can run. The two
statements of a call that touch the map are its two steps here. -/

/-- The point a call of `UpdateFile` has reached: before the read of the map,
after a comparison that lets the write go ahead, or after its return with the
two return values. -/
inductive CallPoint where
  | start
  | writing
  | returned (version : Option Version) (err : Option GoError)
  deriving DecidableEq, Repr

/-- The first step of `UpdateFile`: the read `m.FileMetaMap[filename]` and the
comparison of the versions. -/
def MetaStore.checkStep (m : MetaStore) (fileMetaData : FileMetaData) : CallPoint :=
  match m.lookup fileMetaData.Filename with
  | some currMetadata =>
    if int32Sub fileMetaData.Version currMetadata.Version = 1 then CallPoint.writing
    else CallPoint.returned none (some GoError.incorrectVersion)
  | none => CallPoint.writing

/-- The second step of `UpdateFile`: the write `m.FileMetaMap[filename] =
fileMetaData` and the return of the version. -/
def MetaStore.writeStep (m : MetaStore) (fileMetaData : FileMetaData) :
    Option (MetaStore × CallPoint) :=
  (m.assign fileMetaData.Filename fileMetaData).map fun m' =>
    (m', CallPoint.returned (some { Version := fileMetaData.Version }) none)

/-- One step of a call of `UpdateFile` on the shared store. -/
def MetaStore.callStep (m : MetaStore) (fileMetaData : FileMetaData) :
    CallPoint → Option (MetaStore × CallPoint)
  | CallPoint.start => some (m, m.checkStep fileMetaData)
  | CallPoint.writing => m.writeStep fileMetaData
  | CallPoint.returned version err => some (m, CallPoint.returned version err)

/-- A call of `UpdateFile` run alone: its two steps one after the other. -/
def MetaStore.callAlone (m : MetaStore) (fileMetaData : FileMetaData) :
    Option UpdateFileReturn :=
  match m.callStep fileMetaData CallPoint.start with
  | none => none
  | some (m1, p1) =>
    match m1.callStep fileMetaData p1 with
    | some (m2, CallPoint.returned version err) =>
      some { version := version, err := err, store := m2 }
    | _ => none

/-- The shared store and the points two calls of `UpdateFile` have reached. -/
structure TwoCalls where
  store : MetaStore
  first : CallPoint
  second : CallPoint

/-- Two calls of `UpdateFile` with the candidates `c1` and `c2` run under a
schedule: at every entry of the list one call takes its next step, the first
call at `false` and the second at `true`. -/
def runTwoCalls (c1 c2 : FileMetaData) : List Bool → TwoCalls → Option TwoCalls
  | [], s => some s
  | false :: rest, s =>
    match s.store.callStep c1 s.first with
    | none => none
    | some (m, p) => runTwoCalls c1 c2 rest { s with store := m, first := p }
  | true :: rest, s =>
    match s.store.callStep c2 s.second with
    | none => none
    | some (m, p) => runTwoCalls c1 c2 rest { s with store := m, second := p }

/-! ## Quantities read off the code, used to state the theorems -/

/-- The byte strings `newBlock.BlockData` of the successive iterations of the
block-reading loop of `ClientSync` on a file with `rest` left to read, in order;
the first argument bounds the number of iterations as in `readBlocks`. -/
def fileBlocks (BlockSize : Int) : Nat → List UInt8 → List (List UInt8)
  | 0, _ => []
  | fuel + 1, rest =>
    if BlockSize < 0 then []
    else
      let r := fileRead BlockSize.toNat rest
      if r.2 then []
      else rest.take r.1 :: fileBlocks BlockSize fuel (rest.drop r.1)

/-- The blocks `ClientSync` sends with `PutBlock` for a name, in order: for a
name in the scan map, the entries of `clientBlockMap` under the hashes of the
scan candidate (a missing entry being sent as the empty block). -/
def uploadedBlocks (clientMetaMap : GoMap FileMetaData) (clientBlockMap : GoMap Block)
    (fname : String) : List Block :=
  match clientMetaMap fname with
  | some fBasedDir =>
    fBasedDir.BlockHashList.toList.map fun blockHash =>
      (clientBlockMap blockHash).getD { BlockData := [], BlockSize := 0 }
  | none => []

/-- The version the store holds for a filename. -/
def MetaStore.versionOf (m : MetaStore) (filename : String) : Option Int :=
  (m.lookup filename).map FileMetaData.Version

/-! ## The index file

`LoadMetaFromMetaFile` is defined outside the files embedded here. The reading
of `index.txt` below follows the line format the spec gives for the file,
`filename,version,space-separated block digest list`, which is also the format
of the lines `ClientSync` writes. It is used to start a run from the index file
an earlier run left. -/

/-- Modelled from the spec: the fields of a line, cut at every `sep`. -/
def splitFields (sep : Char) : List Char → List (List Char)
  | [] => [[]]
  | c :: cs =>
    if c = sep then [] :: splitFields sep cs
    else
      match splitFields sep cs with
      | [] => [[c]]
      | f :: fs => (c :: f) :: fs

/-- Modelled from the spec: the value of a string of decimal digits. -/
def decimalValue (ds : List Char) : Nat :=
  ds.foldl (fun n c => 10 * n + (c.toNat - 48)) 0

/-- Modelled from the spec: the version field of a line, a decimal numeral
with an optional minus sign, as an int32. -/
def parseVersion : List Char → Int
  | '-' :: ds => wrapInt32 (-(decimalValue ds : Int))
  | ds => wrapInt32 (decimalValue ds : Int)

/-- Modelled from the spec: the record of one line of `index.txt`, the line
break left out; a line that does not have three fields gives no record. -/
def parseIndexLine (line : String) : Option FileMetaData :=
  match splitFields ',' (line.toList.filter fun c => c ≠ '\n') with
  | [name, version, hashes] =>
    some
      { Filename := String.mk name
        Version := parseVersion version
        BlockHashList :=
          some (((splitFields ' ' hashes).filter fun h => h ≠ []).map String.mk) }
  | _ => none

/-- Modelled from the spec: `LoadMetaFromMetaFile` on the lines of `index.txt`.
The first map holds, by filename, the record of the last line of the name; the
second is the set of the names, in the order of their first lines. -/
def LoadMetaFromMetaFile (indexLines : List String) : GoMap FileMetaData × List String :=
  indexLines.foldl
    (fun acc line =>
      match parseIndexLine line with
      | some f => (acc.1.set f.Filename f, addName acc.2 f.Filename)
      | none => acc)
    (GoMap.empty, [])

/-! ## Example data -/

/-- An example record: file `a.txt` at version 1 with one block. -/
def sampleRecord : FileMetaData :=
  { Filename := "a.txt", Version := 1, BlockHashList := some ["h1"] }

/-- An example store: the store of `NewMetaStore` after `sampleRecord` was put in its map. -/
def sampleStore : MetaStore :=
  { FileMetaMap := some (GoMap.empty.set "a.txt" sampleRecord), BlockStoreAddr := "bs" }

/-- A context that is neither cancelled nor past its deadline. -/
def liveContext : Context := { Err := none }

/-- An example digest function: it tells apart the blocks used in the examples
by their first byte. -/
def sampleHash : List UInt8 → String
  | [] => "h-empty"
  | b :: _ => if b = 1 then "h1" else if b = 2 then "h2" else "h-other"

/-- An example block of two bytes. -/
def sampleBlock : Block := { BlockData := [1, 7], BlockSize := 2 }

/-- An example client with blocks of two bytes. -/
def sampleClient : RPCClient :=
  { MetaStoreAddrs := ["localhost:8081"], BaseDir := "base", BlockSize := 2 }

/-- An example state: the base directory holds `a.txt` with the bytes 1, 7, the
metadata store is `sampleStore` and the block store is empty. -/
def sampleWorld : World :=
  { files := GoMap.empty.set "a.txt" [1, 7]
    indexLines := []
    updateFileCalls := []
    metaStore := sampleStore
    blockStore := NewBlockStore }

/-- An example local index: `e.txt` at version 3 with an empty, non-nil hash list. -/
def sampleIndex : GoMap FileMetaData :=
  GoMap.empty.set "e.txt" { Filename := "e.txt", Version := 3, BlockHashList := some [] }

/-- An example scan map: `a.txt` with a candidate of version 2. -/
def sampleScanMap : GoMap FileMetaData :=
  GoMap.empty.set "a.txt" { Filename := "a.txt", Version := 2, BlockHashList := some ["h1"] }

/-- An example map of scanned blocks. -/
def sampleBlockMap : GoMap Block := GoMap.empty.set "h1" sampleBlock

/-- An example local index: `a.txt` as in `sampleRecord`, and `d.txt` at version 4. -/
def sampleLocalIndex : GoMap FileMetaData :=
  (GoMap.empty.set "a.txt" sampleRecord).set "d.txt"
    { Filename := "d.txt", Version := 4, BlockHashList := some ["h2"] }

/-- An example remote snapshot: `a.txt` as in `sampleRecord`, and `r.txt` at version 1. -/
def sampleRemote : GoMap FileMetaData :=
  (GoMap.empty.set "a.txt" sampleRecord).set "r.txt"
    { Filename := "r.txt", Version := 1, BlockHashList := some ["h2"] }

/-- An example state for a conflict: the base directory holds `a.txt` with the
bytes 3, 3, the metadata store is `sampleStore` and the block store holds
`sampleBlock` under `"h1"`. -/
def conflictWorld : World :=
  { files := GoMap.empty.set "a.txt" [3, 3]
    indexLines := []
    updateFileCalls := []
    metaStore := sampleStore
    blockStore := { BlockMap := some (GoMap.empty.set "h1" sampleBlock) } }

/-- An example first client's state: the base directory holds `a.txt` with the
bytes 1, 7, 2, the metadata store is `sampleStore` and the block store is empty. -/
def firstWorld : World :=
  { files := GoMap.empty.set "a.txt" [1, 7, 2]
    indexLines := []
    updateFileCalls := []
    metaStore := sampleStore
    blockStore := NewBlockStore }

/-- The block map the scan of the bytes 1, 7, 2 in blocks of two bytes leaves. -/
def firstBlockMap : GoMap Block :=
  (GoMap.empty.set "h1" { BlockData := [1, 7], BlockSize := 2 }).set "h2"
    { BlockData := [2], BlockSize := 1 }

/-- An example second client's scan map: `a.txt` edited from version 1. -/
def secondScanMap : GoMap FileMetaData :=
  GoMap.empty.set "a.txt"
    { Filename := "a.txt", Version := 2, BlockHashList := some ["h-other"] }

/-- The block map of the second client's scan of the bytes 3, 3. -/
def secondBlockMap : GoMap Block :=
  GoMap.empty.set "h-other" { BlockData := [3, 3], BlockSize := 2 }

/-- An example local index holding `a.txt` as in `sampleRecord`. -/
def baseIndex : GoMap FileMetaData := GoMap.empty.set "a.txt" sampleRecord

/-- An example record whose second block, `h9`, no example block store holds. -/
def partialRecord : FileMetaData :=
  { Filename := "a.txt", Version := 1, BlockHashList := some ["h1", "h9"] }

/-- An example state for a pull with a missing block: the base directory holds
`a.txt` with the bytes 3, 3, the metadata store holds `partialRecord` and the
block store holds `sampleBlock` under `"h1"` and nothing under `"h9"`. -/
def partialWorld : World :=
  { files := GoMap.empty.set "a.txt" [3, 3]
    indexLines := []
    updateFileCalls := []
    metaStore := { FileMetaMap := some (GoMap.empty.set "a.txt" partialRecord),
                   BlockStoreAddr := "bs" }
    blockStore := { BlockMap := some (GoMap.empty.set "h1" sampleBlock) } }

/-- An example record of a deleted file: the tombstone of `d.txt` at version 5. -/
def tombstoneRecord : FileMetaData :=
  { Filename := "d.txt", Version := 5, BlockHashList := some ["0"] }

/-- An example state before the first of two runs of a client that has never
synced: the base directory holds no file, `index.txt` holds no line, the
metadata store holds `tombstoneRecord` and the block store holds no block. -/
def tombstoneWorld : World :=
  { files := GoMap.empty
    indexLines := []
    updateFileCalls := []
    metaStore := { FileMetaMap := some (GoMap.empty.set "d.txt" tombstoneRecord),
                   BlockStoreAddr := "bs" }
    blockStore := { BlockMap := some GoMap.empty } }

/-- An example state after a run that pulled the tombstone of `d.txt`. -/
def pulledWorld : World := { tombstoneWorld with indexLines := ["d.txt,5,0\n"] }

/-! ## Theorems: arithmetic helpers -/

theorem wrapInt32_of_isInt32 (x : Int) (h : isInt32 x) : wrapInt32 x = x := by
  unfold isInt32 at h
  unfold wrapInt32
  omega

theorem int32Sub_self (v : Int) : int32Sub v v = 0 := by
  unfold int32Sub wrapInt32
  simp

/-- On `int32` values, `a - b == 1` holds in Go exactly when `a == b + 1` does. -/
theorem int32Sub_eq_one_iff (a b : Int) (ha : isInt32 a) :
    int32Sub a b = 1 ↔ a = int32Add b 1 := by
  unfold isInt32 at ha
  unfold int32Sub int32Add wrapInt32
  omega

/-- Below the largest `int32`, Go's `v + 1` is the integer successor. -/
theorem int32Add_one_of_lt (v : Int) (h : isInt32 v) (hlt : v < 2147483647) :
    int32Add v 1 = v + 1 := by
  unfold isInt32 at h
  unfold int32Add wrapInt32
  omega

/-! ## Theorems: the metadata store -/

theorem lookup_of_map (m : MetaStore) (mp : GoMap FileMetaData) (h : m.FileMetaMap = some mp)
    (k : String) : m.lookup k = mp k := by
  simp [MetaStore.lookup, h]

theorem assign_of_map (m : MetaStore) (mp : GoMap FileMetaData) (h : m.FileMetaMap = some mp)
    (k : String) (v : FileMetaData) :
    m.assign k v = some { m with FileMetaMap := some (mp.set k v) } := by
  simp [MetaStore.assign, h]

/-- The store `UpdateFile` leaves when it accepts `cand` on the map `mp`. -/
theorem UpdateFile_absent (m : MetaStore) (mp : GoMap FileMetaData) (ctx : Context)
    (cand : FileMetaData) (hm : m.FileMetaMap = some mp) (habs : mp cand.Filename = none) :
    m.UpdateFile ctx cand = some
      { version := some { Version := cand.Version }, err := none,
        store := { m with FileMetaMap := some (mp.set cand.Filename cand) } } := by
  simp [MetaStore.UpdateFile, lookup_of_map m mp hm, assign_of_map m mp hm, habs]

theorem UpdateFile_next (m : MetaStore) (mp : GoMap FileMetaData) (ctx : Context)
    (cand cur : FileMetaData) (hm : m.FileMetaMap = some mp)
    (hcur : mp cand.Filename = some cur) (h1 : int32Sub cand.Version cur.Version = 1) :
    m.UpdateFile ctx cand = some
      { version := some { Version := cand.Version }, err := none,
        store := { m with FileMetaMap := some (mp.set cand.Filename cand) } } := by
  simp [MetaStore.UpdateFile, lookup_of_map m mp hm, assign_of_map m mp hm, hcur, h1]

theorem UpdateFile_reject (m : MetaStore) (mp : GoMap FileMetaData) (ctx : Context)
    (cand cur : FileMetaData) (hm : m.FileMetaMap = some mp)
    (hcur : mp cand.Filename = some cur) (h1 : int32Sub cand.Version cur.Version ≠ 1) :
    m.UpdateFile ctx cand = some
      { version := none, err := some GoError.incorrectVersion, store := m } := by
  simp [MetaStore.UpdateFile, lookup_of_map m mp hm, hcur, h1]

/-- C1. On a store whose map is the non-nil map `mp`, and for a candidate whose
version is an `int32` value, `UpdateFile` accepts the candidate (returns a
version and a nil error) if and only if `mp` holds no record for the candidate's
filename or the candidate's version equals the stored record's version plus 1
(Go's `int32` addition). -/
theorem UpdateFile_accepts_iff (m : MetaStore) (mp : GoMap FileMetaData) (ctx : Context)
    (cand : FileMetaData) (hm : m.FileMetaMap = some mp) (hc : isInt32 cand.Version) :
    (∃ v m', m.UpdateFile ctx cand = some { version := some v, err := none, store := m' }) ↔
      (mp cand.Filename = none ∨
        ∃ cur, mp cand.Filename = some cur ∧ cand.Version = int32Add cur.Version 1) := by
  cases hcur : mp cand.Filename with
  | none =>
    rw [UpdateFile_absent m mp ctx cand hm hcur]
    exact ⟨fun _ => Or.inl rfl, fun _ => ⟨_, _, rfl⟩⟩
  | some cur =>
    have hiff := int32Sub_eq_one_iff cand.Version cur.Version hc
    by_cases h1 : int32Sub cand.Version cur.Version = 1
    · rw [UpdateFile_next m mp ctx cand cur hm hcur h1]
      exact ⟨fun _ => Or.inr ⟨cur, rfl, hiff.mp h1⟩, fun _ => ⟨_, _, rfl⟩⟩
    · rw [UpdateFile_reject m mp ctx cand cur hm hcur h1]
      constructor
      · rintro ⟨v, m', h⟩
        simp at h
      · rintro (h | ⟨c, hc1, hc2⟩)
        · simp at h
        · simp only [Option.some.injEq] at hc1
          subst hc1
          exact absurd (hiff.mpr hc2) h1

/-- Witness for C1: `sampleStore` holds `a.txt` at version 1 and the candidate
has version 2. -/
theorem UpdateFile_accepts_iff_witness :
    isInt32 2 ∧
    ((∃ v m', sampleStore.UpdateFile liveContext
        { Filename := "a.txt", Version := 2, BlockHashList := some ["h2"] } =
        some { version := some v, err := none, store := m' }) ↔
      ((GoMap.empty.set "a.txt" sampleRecord) "a.txt" = none ∨
        ∃ cur, (GoMap.empty.set "a.txt" sampleRecord) "a.txt" = some cur ∧
          (2 : Int) = int32Add cur.Version 1)) :=
  ⟨by decide, UpdateFile_accepts_iff sampleStore (GoMap.empty.set "a.txt" sampleRecord)
    liveContext { Filename := "a.txt", Version := 2, BlockHashList := some ["h2"] } rfl
    (by decide)⟩

/-- C2. On a store whose map is the non-nil map `mp`, `UpdateFile` returns, with
exactly one of two outcomes: either it returns the candidate's version and a
nil error, and the new map holds the candidate under the candidate's filename
and agrees with `mp` on every other key; or it returns an error and no version,
the store is unchanged, and `GetFileInfoMap` on it returns a map that still
holds the record `mp` held for that filename. -/
theorem UpdateFile_all_or_nothing (m : MetaStore) (mp : GoMap FileMetaData) (ctx : Context)
    (cand : FileMetaData) (hm : m.FileMetaMap = some mp) :
    ∃ r, m.UpdateFile ctx cand = some r ∧
      Xor'
        (r.version = some { Version := cand.Version } ∧ r.err = none ∧
          ∃ mp', r.store.FileMetaMap = some mp' ∧ mp' cand.Filename = some cand ∧
            ∀ k, k ≠ cand.Filename → mp' k = mp k)
        (r.version = none ∧ r.err ≠ none ∧ r.store = m ∧
          ∀ ctx', ∃ fim, r.store.GetFileInfoMap ctx' = (some fim, none) ∧
            fim.FileInfoMap cand.Filename = mp cand.Filename) := by
  have hacc : ∀ r : UpdateFileReturn,
      r = { version := some { Version := cand.Version }, err := none,
            store := { m with FileMetaMap := some (mp.set cand.Filename cand) } } →
      Xor'
        (r.version = some { Version := cand.Version } ∧ r.err = none ∧
          ∃ mp', r.store.FileMetaMap = some mp' ∧ mp' cand.Filename = some cand ∧
            ∀ k, k ≠ cand.Filename → mp' k = mp k)
        (r.version = none ∧ r.err ≠ none ∧ r.store = m ∧
          ∀ ctx', ∃ fim, r.store.GetFileInfoMap ctx' = (some fim, none) ∧
            fim.FileInfoMap cand.Filename = mp cand.Filename) := by
    intro r hr
    subst hr
    refine Or.inl ⟨⟨rfl, rfl, mp.set cand.Filename cand, rfl, ?_, ?_⟩, ?_⟩
    · simp [GoMap.set]
    · intro k hk
      simp [GoMap.set, hk]
    · rintro ⟨h, _⟩
      simp at h
  rcases Option.eq_none_or_eq_some (mp cand.Filename) with hcur | ⟨cur, hcur⟩
  · exact ⟨_, UpdateFile_absent m mp ctx cand hm hcur, hacc _ rfl⟩
  · by_cases h1 : int32Sub cand.Version cur.Version = 1
    · exact ⟨_, UpdateFile_next m mp ctx cand cur hm hcur h1, hacc _ rfl⟩
    · refine ⟨_, UpdateFile_reject m mp ctx cand cur hm hcur h1, Or.inr ⟨⟨rfl, ?_, rfl, ?_⟩, ?_⟩⟩
      · simp
      · intro ctx'
        refine ⟨{ FileInfoMap := mp }, ?_, rfl⟩
        simp [MetaStore.GetFileInfoMap, hm]
      · rintro ⟨h, _⟩
        simp at h

/-- Witness for C2 on `sampleStore` with a candidate of a stale version. -/
theorem UpdateFile_all_or_nothing_witness :
    ∃ r, sampleStore.UpdateFile liveContext
        { Filename := "a.txt", Version := 5, BlockHashList := none } = some r ∧
      Xor'
        (r.version = some { Version := 5 } ∧ r.err = none ∧
          ∃ mp', r.store.FileMetaMap = some mp' ∧
            mp' "a.txt" = some { Filename := "a.txt", Version := 5, BlockHashList := none } ∧
            ∀ k, k ≠ "a.txt" → mp' k = (GoMap.empty.set "a.txt" sampleRecord) k)
        (r.version = none ∧ r.err ≠ none ∧ r.store = sampleStore ∧
          ∀ ctx', ∃ fim, r.store.GetFileInfoMap ctx' = (some fim, none) ∧
            fim.FileInfoMap "a.txt" = (GoMap.empty.set "a.txt" sampleRecord) "a.txt") :=
  UpdateFile_all_or_nothing sampleStore (GoMap.empty.set "a.txt" sampleRecord) liveContext
    { Filename := "a.txt", Version := 5, BlockHashList := none } rfl

/-- C3, as stated, fails: `sampleStore` holds exactly `sampleRecord` for `a.txt`,
and `UpdateFile` of `sampleRecord` returns no version and the error
`incorrect version`. -/
theorem equal_record_update_conflicts_at_sample :
    sampleStore.lookup sampleRecord.Filename = some sampleRecord ∧
    (sampleStore.UpdateFile liveContext sampleRecord).map (fun r => (r.version, r.err)) =
      some (none, some GoError.incorrectVersion) := by
  constructor
  · rfl
  · rfl

/-- C3, amended. On a store whose map `mp` holds, for the candidate's filename,
a record equal to the candidate, `UpdateFile` rejects the candidate: it returns
no version and the error `incorrect version`, and leaves the store unchanged. -/
theorem UpdateFile_same_record_rejected (m : MetaStore) (mp : GoMap FileMetaData)
    (ctx : Context) (cand : FileMetaData) (hm : m.FileMetaMap = some mp)
    (hsame : mp cand.Filename = some cand) :
    m.UpdateFile ctx cand =
      some { version := none, err := some GoError.incorrectVersion, store := m } := by
  apply UpdateFile_reject m mp ctx cand cand hm hsame
  rw [int32Sub_self]
  decide

/-- Witness for the amended C3 on `sampleStore`. -/
theorem UpdateFile_same_record_rejected_witness :
    sampleStore.UpdateFile liveContext sampleRecord =
      some { version := none, err := some GoError.incorrectVersion, store := sampleStore } :=
  UpdateFile_same_record_rejected sampleStore (GoMap.empty.set "a.txt" sampleRecord)
    liveContext sampleRecord rfl rfl

/-- An accepted update over an existing record whose version is an `int32`
below the largest one stores exactly the successor of the replaced version. -/
theorem UpdateFile_accepted_version_succ (m : MetaStore) (mp : GoMap FileMetaData)
    (ctx : Context) (cand cur : FileMetaData) (r : UpdateFileReturn)
    (hm : m.FileMetaMap = some mp) (hcur : mp cand.Filename = some cur)
    (hc : isInt32 cand.Version) (hv : isInt32 cur.Version) (hlt : cur.Version < 2147483647)
    (hr : m.UpdateFile ctx cand = some r) (hok : r.err = none) :
    cand.Version = cur.Version + 1 ∧ r.store.versionOf cand.Filename = some (cur.Version + 1) := by
  by_cases h1 : int32Sub cand.Version cur.Version = 1
  · rw [UpdateFile_next m mp ctx cand cur hm hcur h1] at hr
    have hveq : cand.Version = cur.Version + 1 := by
      rw [← int32Add_one_of_lt cur.Version hv hlt]
      exact (int32Sub_eq_one_iff cand.Version cur.Version hc).mp h1
    simp only [Option.some.injEq] at hr
    subst hr
    refine ⟨hveq, ?_⟩
    simp [MetaStore.versionOf, MetaStore.lookup, GoMap.set, hveq]
  · rw [UpdateFile_reject m mp ctx cand cur hm hcur h1] at hr
    simp only [Option.some.injEq] at hr
    subst hr
    simp at hok

/-- C4 fails at the largest `int32`: on the store of `NewMetaStore`, the update
of `a.txt` to version 2147483647 is accepted, and the following update of
`a.txt` to version -2147483648 is accepted too, replacing the stored version
2147483647 by the smaller version -2147483648. -/
theorem UpdateFile_version_wraps :
    ∃ r1 r2,
      (NewMetaStore "bs").UpdateFile liveContext
        { Filename := "a.txt", Version := 2147483647, BlockHashList := none } = some r1 ∧
      r1.err = none ∧ r1.store.versionOf "a.txt" = some 2147483647 ∧
      r1.store.UpdateFile liveContext
        { Filename := "a.txt", Version := -2147483648, BlockHashList := none } = some r2 ∧
      r2.err = none ∧ r2.version = some { Version := -2147483648 } ∧
      r2.store.versionOf "a.txt" = some (-2147483648) ∧
      (-2147483648 : Int) < 2147483647 :=
  ⟨_, _, rfl, rfl, rfl, rfl, rfl, rfl, rfl, by decide⟩

/-! ## Theorems: the block store -/

theorem blockLookup_of_map (bs : BlockStore) (mp : GoMap Block)
    (h : bs.BlockMap = some mp) (k : String) : bs.lookup k = mp k := by
  simp [BlockStore.lookup, h]

theorem hasBlocksLoop_eq (bs : BlockStore) (hashList acc : List String) :
    bs.hasBlocksLoop hashList acc =
      acc ++ hashList.filter (fun h => (bs.lookup h).isSome) := by
  induction hashList generalizing acc with
  | nil => simp [BlockStore.hasBlocksLoop]
  | cons h rest ih =>
    unfold BlockStore.hasBlocksLoop
    cases hl : bs.lookup h with
    | none => simp [ih, hl]
    | some b => simp [ih, hl]

/-- What `HasBlocks` returns on a non-nil input: as many empty strings as the
input has hashes, followed by the input hashes that are keys of the block map. -/
theorem HasBlocks_eq (bs : BlockStore) (ctx : Context) (inp : BlockHashes) :
    bs.HasBlocks ctx (some inp) =
      (some { Hashes := List.replicate inp.Hashes.length "" ++
          inp.Hashes.filter (fun h => (bs.lookup h).isSome) }, none) := by
  simp [BlockStore.HasBlocks, hasBlocksLoop_eq]

/-- C5 fails on the code: on the empty store of `NewBlockStore` and the input
list `["a"]`, `HasBlocks` returns the list `[""]`, whose element is not an input
digest and is not stored; on a store that holds a block under `"a"` it returns
`["", "a"]`. -/
theorem HasBlocks_returns_empty_strings :
    NewBlockStore.HasBlocks liveContext (some { Hashes := ["a"] }) =
      (some { Hashes := [""] }, none) ∧
    ({ BlockMap := some (GoMap.empty.set "a" sampleBlock) } : BlockStore).HasBlocks liveContext
        (some { Hashes := ["a"] }) =
      (some { Hashes := ["", "a"] }, none) ∧
    NewBlockStore.lookup "" = none ∧
    ({ BlockMap := some (GoMap.empty.set "a" sampleBlock) } : BlockStore).lookup "" = none := by
  refine ⟨?_, ?_, ?_, ?_⟩ <;> decide

/-- C6. On a block store whose map is the non-nil map `mp`, `PutBlock` of a
non-nil block `b` returns the success flag `true` and a nil error; in the store
it leaves, `GetBlock` of the digest of `b`'s own bytes returns `b` with a nil
error, and the entry under every other digest is the one the store had before. -/
theorem PutBlock_then_GetBlock (GetBlockHashString : List UInt8 → String) (bs : BlockStore)
    (mp : GoMap Block) (ctx ctx' : Context) (b : Block) (hm : bs.BlockMap = some mp) :
    ∃ r, bs.PutBlock GetBlockHashString ctx (some b) = some r ∧
      r.success = { Flag := true } ∧ r.err = none ∧
      r.store.GetBlock ctx' { Hash := GetBlockHashString b.BlockData } = (some b, none) ∧
      ∀ h, h ≠ GetBlockHashString b.BlockData → r.store.lookup h = bs.lookup h := by
  refine ⟨{ success := { Flag := true }, err := none,
            store := { BlockMap := some (mp.set (GetBlockHashString b.BlockData) b) } },
    ?_, rfl, rfl, ?_, ?_⟩
  · simp [BlockStore.PutBlock, BlockStore.assign, hm]
  · simp [BlockStore.GetBlock, BlockStore.lookup, GoMap.set]
  · intro h hne
    simp [BlockStore.lookup, GoMap.set, hne, hm]

/-- Witness for C6 on the store of `NewBlockStore` and `sampleBlock`. -/
theorem PutBlock_then_GetBlock_witness :
    ∃ r, NewBlockStore.PutBlock sampleHash liveContext (some sampleBlock) = some r ∧
      r.success = { Flag := true } ∧ r.err = none ∧
      r.store.GetBlock liveContext { Hash := sampleHash sampleBlock.BlockData } =
        (some sampleBlock, none) ∧
      ∀ h, h ≠ sampleHash sampleBlock.BlockData → r.store.lookup h = NewBlockStore.lookup h :=
  PutBlock_then_GetBlock sampleHash NewBlockStore GoMap.empty liveContext liveContext
    sampleBlock rfl

/-- What `GetBlock` returns for a digest that is not a key of the block map: no
block, and whatever `ctx.Err()` is. -/
theorem GetBlock_absent (bs : BlockStore) (ctx : Context) (blockHash : BlockHash)
    (habs : bs.lookup blockHash.Hash = none) :
    bs.GetBlock ctx blockHash = (none, ctx.Err) := by
  simp [BlockStore.GetBlock, habs]

/-- C7 fails on the code: on the empty store of `NewBlockStore`, `GetBlock` of
the digest `"abc"`, which is not a key of the block map, under a context that
is neither cancelled nor expired returns no block and a nil error. -/
theorem GetBlock_absent_returns_nil_error :
    NewBlockStore.lookup "abc" = none ∧
    NewBlockStore.GetBlock liveContext { Hash := "abc" } = (none, none) := by
  constructor <;> rfl

/-! ## Theorems: the client's calls -/

theorem UpdateFile_returns (m : MetaStore) (mp : GoMap FileMetaData) (ctx : Context)
    (cand : FileMetaData) (hm : m.FileMetaMap = some mp) :
    ∃ r, m.UpdateFile ctx cand = some r ∧
      ((r.err = none ∧ r.store.FileMetaMap = some (mp.set cand.Filename cand)) ∨
        (r.err = some GoError.incorrectVersion ∧ r.store = m ∧ mp cand.Filename ≠ none)) := by
  rcases Option.eq_none_or_eq_some (mp cand.Filename) with hcur | ⟨cur, hcur⟩
  · exact ⟨_, UpdateFile_absent m mp ctx cand hm hcur, Or.inl ⟨rfl, rfl⟩⟩
  · by_cases h1 : int32Sub cand.Version cur.Version = 1
    · exact ⟨_, UpdateFile_next m mp ctx cand cur hm hcur h1, Or.inl ⟨rfl, rfl⟩⟩
    · refine ⟨_, UpdateFile_reject m mp ctx cand cur hm hcur h1, Or.inr ⟨rfl, rfl, ?_⟩⟩
      simp [hcur]

theorem RPCClient_PutBlock_eq (GetBlockHashString : List UInt8 → String) (ctx : Context)
    (bs : BlockStore) (mp : GoMap Block) (block : Option Block) (hm : bs.BlockMap = some mp) :
    RPCClient.PutBlock GetBlockHashString ctx bs block =
      some { BlockMap := some (mp.set
        (GetBlockHashString (block.getD { BlockData := [], BlockSize := 0 }).BlockData)
        (block.getD { BlockData := [], BlockSize := 0 })) } := by
  simp [RPCClient.PutBlock, BlockStore.PutBlock, BlockStore.assign, hm]

/-- The upload loop returns on a store with a non-nil map, and the store it
leaves has a non-nil map. -/
theorem putBlocks_returns (GetBlockHashString : List UInt8 → String) (ctx : Context)
    (clientBlockMap : GoMap Block) (hashes : List String) (bs : BlockStore)
    (mp : GoMap Block) (hm : bs.BlockMap = some mp) :
    ∃ mp', putBlocks GetBlockHashString ctx clientBlockMap hashes bs =
      some { BlockMap := some mp' } := by
  induction hashes generalizing bs mp with
  | nil =>
    refine ⟨mp, ?_⟩
    cases bs
    simp only at hm
    simp [putBlocks, hm]
  | cons h rest ih =>
    unfold putBlocks
    rw [RPCClient_PutBlock_eq GetBlockHashString ctx bs mp _ hm]
    exact ih _ _ rfl

/-! ## Theorems: the reconciliation of one name -/

theorem pullFile_updateFileCalls (ctx : Context) (w : World) (fname : String)
    (fServer : FileMetaData) :
    (pullFile ctx w fname fServer).updateFileCalls = w.updateFileCalls := rfl

theorem pullFile_indexLines (ctx : Context) (w : World) (fname : String)
    (fServer : FileMetaData) :
    (pullFile ctx w fname fServer).indexLines =
      w.indexLines ++ [indexLine fname fServer.Version fServer.BlockHashList] := rfl

/-- What the body of the final loop does once the upload and `UpdateFile` have
returned. -/
theorem reconcileFile_push (GetBlockHashString : List UInt8 → String) (ctx : Context)
    (clientMetaMap : GoMap FileMetaData) (clientBlockMap : GoMap Block)
    (localIndexFileMetaMap remoteFileInfoMap : GoMap FileMetaData)
    (w : World) (fname : String) (cand : FileMetaData) (bs : BlockStore)
    (r : UpdateFileReturn)
    (hc : pushCandidate clientMetaMap localIndexFileMetaMap fname = some cand)
    (hup : (match clientMetaMap fname with
      | some _ => putBlocks GetBlockHashString ctx clientBlockMap cand.BlockHashList.toList
          w.blockStore
      | none => some w.blockStore) = some bs)
    (hr : w.metaStore.UpdateFile ctx cand = some r) :
    reconcileFile GetBlockHashString ctx clientMetaMap clientBlockMap localIndexFileMetaMap
        remoteFileInfoMap w fname =
      match r.err with
      | some _ =>
        match remoteFileInfoMap fname with
        | none => none
        | some fServer =>
          some (pullFile ctx
            { w with blockStore := bs, metaStore := r.store,
                     updateFileCalls := w.updateFileCalls ++ [cand] } fname fServer)
      | none =>
        some { w with
          blockStore := bs, metaStore := r.store,
          updateFileCalls := w.updateFileCalls ++ [cand],
          indexLines := w.indexLines ++ [indexLine fname cand.Version cand.BlockHashList] } := by
  unfold reconcileFile
  simp only [hc, hup, hr]

/-- The upload of a candidate's blocks returns on a store with a non-nil map. -/
theorem upload_returns (GetBlockHashString : List UInt8 → String) (ctx : Context)
    (clientMetaMap : GoMap FileMetaData) (clientBlockMap : GoMap Block)
    (w : World) (fname : String) (cand : FileMetaData) (bmp : GoMap Block)
    (hbs : w.blockStore.BlockMap = some bmp) :
    ∃ bmp', (match clientMetaMap fname with
      | some _ => putBlocks GetBlockHashString ctx clientBlockMap cand.BlockHashList.toList
          w.blockStore
      | none => some w.blockStore) = some { BlockMap := some bmp' } := by
  cases clientMetaMap fname with
  | none =>
    refine ⟨bmp, ?_⟩
    cases hw : w.blockStore
    rw [hw] at hbs
    simp only at hbs
    simp [hbs]
  | some c => exact putBlocks_returns GetBlockHashString ctx clientBlockMap _ _ bmp hbs

/-- With both stores holding non-nil maps and a remote snapshot that has a
record whenever the store has one for the candidate's name, the body of the
final loop returns and has called `UpdateFile` once, with the candidate. -/
theorem reconcileFile_calls_UpdateFile (GetBlockHashString : List UInt8 → String)
    (ctx : Context) (clientMetaMap : GoMap FileMetaData) (clientBlockMap : GoMap Block)
    (localIndexFileMetaMap remoteFileInfoMap : GoMap FileMetaData)
    (w : World) (fname : String) (cand : FileMetaData)
    (mp : GoMap FileMetaData) (bmp : GoMap Block)
    (hms : w.metaStore.FileMetaMap = some mp) (hbs : w.blockStore.BlockMap = some bmp)
    (hc : pushCandidate clientMetaMap localIndexFileMetaMap fname = some cand)
    (hsnap : mp cand.Filename ≠ none → remoteFileInfoMap fname ≠ none) :
    ∃ w', reconcileFile GetBlockHashString ctx clientMetaMap clientBlockMap
        localIndexFileMetaMap remoteFileInfoMap w fname = some w' ∧
      w'.updateFileCalls = w.updateFileCalls ++ [cand] := by
  obtain ⟨bmp', hup⟩ := upload_returns GetBlockHashString ctx clientMetaMap clientBlockMap
    w fname cand bmp hbs
  obtain ⟨r, hr, hcase⟩ := UpdateFile_returns w.metaStore mp ctx cand hms
  rw [reconcileFile_push GetBlockHashString ctx clientMetaMap clientBlockMap
    localIndexFileMetaMap remoteFileInfoMap w fname cand _ r hc hup hr]
  rcases hcase with ⟨herr, _⟩ | ⟨herr, _, hpres⟩
  · rw [herr]
    exact ⟨_, rfl, rfl⟩
  · rw [herr]
    rcases Option.eq_none_or_eq_some (remoteFileInfoMap fname) with hnone | ⟨fServer, hsome⟩
    · exact absurd hnone (hsnap hpres)
    · simp only [hsome]
      exact ⟨_, rfl, rfl⟩

/-- C8. With both stores holding non-nil maps, scan candidates stored under
their own names, and a remote snapshot that has a record for the name whenever
the store has one, the body of the final loop of `ClientSync` returns for every
name, and its action is fixed by presence: for a name in the scan map it calls
`UpdateFile` with the scan candidate; for a name not in the scan map but in the
local index it calls `UpdateFile` with the tombstone of the name, version the
local index version plus 1 (as `int32`), hash list `["0"]`; for a name only in
the remote snapshot it calls no `UpdateFile`, leaves the metadata store as it
is, and writes the line of the remote record to the index. -/
theorem reconcileFile_action_by_presence (GetBlockHashString : List UInt8 → String)
    (ctx : Context) (clientMetaMap : GoMap FileMetaData) (clientBlockMap : GoMap Block)
    (localIndexFileMetaMap remoteFileInfoMap : GoMap FileMetaData)
    (w : World) (fname : String) (mp : GoMap FileMetaData) (bmp : GoMap Block)
    (hms : w.metaStore.FileMetaMap = some mp) (hbs : w.blockStore.BlockMap = some bmp)
    (hname : ∀ c, clientMetaMap fname = some c → c.Filename = fname)
    (hsnap : mp fname ≠ none → remoteFileInfoMap fname ≠ none) :
    (∀ fBasedDir, clientMetaMap fname = some fBasedDir →
      ∃ w', reconcileFile GetBlockHashString ctx clientMetaMap clientBlockMap
          localIndexFileMetaMap remoteFileInfoMap w fname = some w' ∧
        w'.updateFileCalls = w.updateFileCalls ++ [fBasedDir]) ∧
    (∀ fLocalIndex, clientMetaMap fname = none →
      localIndexFileMetaMap fname = some fLocalIndex →
      ∃ w', reconcileFile GetBlockHashString ctx clientMetaMap clientBlockMap
          localIndexFileMetaMap remoteFileInfoMap w fname = some w' ∧
        w'.updateFileCalls = w.updateFileCalls ++
          [{ Filename := fname, Version := int32Add fLocalIndex.Version 1,
             BlockHashList := some ["0"] }]) ∧
    (∀ fServer, clientMetaMap fname = none → localIndexFileMetaMap fname = none →
      remoteFileInfoMap fname = some fServer →
      ∃ w', reconcileFile GetBlockHashString ctx clientMetaMap clientBlockMap
          localIndexFileMetaMap remoteFileInfoMap w fname = some w' ∧
        w'.updateFileCalls = w.updateFileCalls ∧
        w'.metaStore = w.metaStore ∧
        w'.indexLines = w.indexLines ++
          [indexLine fname fServer.Version fServer.BlockHashList]) := by
  refine ⟨?_, ?_, ?_⟩
  · intro fBasedDir hdir
    have hc : pushCandidate clientMetaMap localIndexFileMetaMap fname = some fBasedDir := by
      simp [pushCandidate, hdir]
    have hfn := hname fBasedDir hdir
    exact reconcileFile_calls_UpdateFile GetBlockHashString ctx clientMetaMap clientBlockMap
      localIndexFileMetaMap remoteFileInfoMap w fname fBasedDir mp bmp hms hbs hc
      (by rw [hfn]; exact hsnap)
  · intro fLocalIndex hdir hloc
    have hc : pushCandidate clientMetaMap localIndexFileMetaMap fname =
        some { Filename := fname, Version := int32Add fLocalIndex.Version 1,
               BlockHashList := some ["0"] } := by
      simp [pushCandidate, hdir, hloc]
    exact reconcileFile_calls_UpdateFile GetBlockHashString ctx clientMetaMap clientBlockMap
      localIndexFileMetaMap remoteFileInfoMap w fname _ mp bmp hms hbs hc hsnap
  · intro fServer hdir hloc hrem
    refine ⟨pullFile ctx w fname fServer, ?_, rfl, rfl, rfl⟩
    simp [reconcileFile, pushCandidate, hdir, hloc, hrem]

/-- Witness for C8, on `sampleWorld`: `a.txt` is in the scan map, `d.txt` is
only in the local index, `r.txt` is only in the remote snapshot. -/
theorem reconcileFile_action_by_presence_witness :
    (∃ w', reconcileFile sampleHash liveContext sampleScanMap sampleBlockMap
        sampleLocalIndex sampleRemote sampleWorld "a.txt" = some w' ∧
      w'.updateFileCalls = sampleWorld.updateFileCalls ++
        [{ Filename := "a.txt", Version := 2, BlockHashList := some ["h1"] }]) ∧
    (∃ w', reconcileFile sampleHash liveContext sampleScanMap sampleBlockMap
        sampleLocalIndex sampleRemote sampleWorld "d.txt" = some w' ∧
      w'.updateFileCalls = sampleWorld.updateFileCalls ++
        [{ Filename := "d.txt", Version := int32Add 4 1, BlockHashList := some ["0"] }]) ∧
    (∃ w', reconcileFile sampleHash liveContext sampleScanMap sampleBlockMap
        sampleLocalIndex sampleRemote sampleWorld "r.txt" = some w' ∧
      w'.updateFileCalls = sampleWorld.updateFileCalls ∧
      w'.metaStore = sampleWorld.metaStore ∧
      w'.indexLines = sampleWorld.indexLines ++ [indexLine "r.txt" 1 (some ["h2"])]) :=
  ⟨(reconcileFile_action_by_presence sampleHash liveContext sampleScanMap sampleBlockMap
      sampleLocalIndex sampleRemote sampleWorld "a.txt"
      (GoMap.empty.set "a.txt" sampleRecord) GoMap.empty rfl rfl
      (fun c hc => by
        have h : sampleScanMap "a.txt" =
            some { Filename := "a.txt", Version := 2, BlockHashList := some ["h1"] } := rfl
        rw [h] at hc
        simp only [Option.some.injEq] at hc
        rw [← hc])
      (fun _ => by decide)).1 _ rfl,
   (reconcileFile_action_by_presence sampleHash liveContext sampleScanMap sampleBlockMap
      sampleLocalIndex sampleRemote sampleWorld "d.txt"
      (GoMap.empty.set "a.txt" sampleRecord) GoMap.empty rfl rfl
      (fun c hc => by
        have h : sampleScanMap "d.txt" = none := rfl
        rw [h] at hc
        simp at hc)
      (fun h => absurd rfl h)).2.1 _ rfl rfl,
   (reconcileFile_action_by_presence sampleHash liveContext sampleScanMap sampleBlockMap
      sampleLocalIndex sampleRemote sampleWorld "r.txt"
      (GoMap.empty.set "a.txt" sampleRecord) GoMap.empty rfl rfl
      (fun c hc => by
        have h : sampleScanMap "r.txt" = none := rfl
        rw [h] at hc
        simp at hc)
      (fun _ => by decide)).2.2 _ rfl rfl rfl⟩

/-! ## Theorems: the scan -/

theorem hashListsDiffer_eq_false_iff (xs ys : List String) (hlen : xs.length = ys.length) :
    hashListsDiffer xs ys = false ↔ xs = ys := by
  induction xs generalizing ys with
  | nil =>
    cases ys with
    | nil => simp [hashListsDiffer]
    | cons y ys => simp at hlen
  | cons x xs ih =>
    cases ys with
    | nil => simp at hlen
    | cons y ys =>
      simp only [List.length_cons, Nat.add_right_cancel_iff] at hlen
      unfold hashListsDiffer
      by_cases hxy : x = y
      · subst hxy
        simp [ih ys hlen]
      · simp [hxy]

/-- `IsBlockHashListModified` returns false exactly on equal slices: the same
elements in the same order, and both nil or both non-nil. -/
theorem IsBlockHashListModified_eq_false_iff (hashList1 hashList2 : GoSlice String) :
    IsBlockHashListModified hashList1 hashList2 = false ↔ hashList1 = hashList2 := by
  cases hashList1 with
  | none =>
    cases hashList2 with
    | none => simp [IsBlockHashListModified, GoSlice.len, GoSlice.toList, hashListsDiffer]
    | some ys => simp [IsBlockHashListModified]
  | some xs =>
    cases hashList2 with
    | none => simp [IsBlockHashListModified]
    | some ys =>
      by_cases hlen : xs.length = ys.length
      · simp [IsBlockHashListModified, GoSlice.len, GoSlice.toList, hlen,
          hashListsDiffer_eq_false_iff xs ys hlen]
      · have hne : xs ≠ ys := fun h => hlen (by rw [h])
        simp [IsBlockHashListModified, GoSlice.len, GoSlice.toList, hlen, hne]

/-- With a positive block size and enough iterations, the blocks of a file are
non-empty, at most `BlockSize` long, and their concatenation is the file. -/
theorem fileBlocks_flatten (BlockSize : Int) (hB : 0 < BlockSize) (fuel : Nat)
    (rest : List UInt8) (hfuel : rest.length < fuel) :
    (fileBlocks BlockSize fuel rest).flatten = rest ∧
    (∀ c ∈ fileBlocks BlockSize fuel rest, 1 ≤ c.length ∧ (c.length : Int) ≤ BlockSize) := by
  induction fuel generalizing rest with
  | zero => omega
  | succ fuel ih =>
    have hneg : ¬ BlockSize < 0 := by omega
    have hsz : BlockSize.toNat ≠ 0 := by omega
    cases rest with
    | nil => simp [fileBlocks, fileRead, hneg, hsz]
    | cons x xs =>
      have hk1 : 1 ≤ min BlockSize.toNat (x :: xs).length := by
        simp only [List.length_cons]
        omega
      have hk3 : ((min BlockSize.toNat (x :: xs).length : Nat) : Int) ≤ BlockSize := by
        have := Nat.min_le_left BlockSize.toNat (x :: xs).length
        omega
      have hdrop : ((x :: xs).drop (min BlockSize.toNat (x :: xs).length)).length < fuel := by
        rw [List.length_drop]
        simp only [List.length_cons] at hfuel hk1 ⊢
        omega
      have htl : ((x :: xs).take (min BlockSize.toNat (x :: xs).length)).length =
          min BlockSize.toNat (x :: xs).length := by
        rw [List.length_take]
        omega
      have hstep : fileBlocks BlockSize (fuel + 1) (x :: xs) =
          (x :: xs).take (min BlockSize.toNat (x :: xs).length) ::
            fileBlocks BlockSize fuel ((x :: xs).drop (min BlockSize.toNat (x :: xs).length)) := by
        simp [fileBlocks, fileRead, hneg, hsz]
      obtain ⟨hflat, hlen⟩ := ih _ hdrop
      rw [hstep]
      constructor
      · rw [List.flatten_cons, hflat, List.take_append_drop]
      · intro c hc
        rcases List.mem_cons.mp hc with hc | hc
        · subst hc
          rw [htl]
          exact ⟨hk1, hk3⟩
        · exact hlen c hc

/-- The block-reading loop in terms of the blocks of the file: it appends their
digests to the hash list, which it leaves as it was when there is no block, and
puts every block under its digest in the block map. -/
theorem readBlocks_eq (GetBlockHashString : List UInt8 → String) (BlockSize : Int)
    (hB : 0 < BlockSize) (fuel : Nat) (rest : List UInt8) (newBlockHashList : GoSlice String)
    (clientBlockMap : GoMap Block) (hfuel : rest.length < fuel) :
    readBlocks GetBlockHashString BlockSize fuel rest newBlockHashList clientBlockMap =
      some (if fileBlocks BlockSize fuel rest = [] then newBlockHashList
            else some (newBlockHashList.toList ++
              (fileBlocks BlockSize fuel rest).map GetBlockHashString),
        (fileBlocks BlockSize fuel rest).foldl (fun m c => m.set (GetBlockHashString c)
          { BlockData := c, BlockSize := wrapInt32 (c.length : Int) }) clientBlockMap) := by
  induction fuel generalizing rest newBlockHashList clientBlockMap with
  | zero => omega
  | succ fuel ih =>
    have hneg : ¬ BlockSize < 0 := by omega
    have hsz : BlockSize.toNat ≠ 0 := by omega
    cases rest with
    | nil => simp [readBlocks, fileBlocks, fileRead, hneg, hsz]
    | cons x xs =>
      have hk1 : 1 ≤ min BlockSize.toNat (x :: xs).length := by
        simp only [List.length_cons]
        omega
      have hdrop : ((x :: xs).drop (min BlockSize.toNat (x :: xs).length)).length < fuel := by
        rw [List.length_drop]
        simp only [List.length_cons] at hfuel hk1 ⊢
        omega
      have htl : ((x :: xs).take (min BlockSize.toNat (x :: xs).length)).length =
          min BlockSize.toNat (x :: xs).length := by
        rw [List.length_take]
        omega
      have hstepF : fileBlocks BlockSize (fuel + 1) (x :: xs) =
          (x :: xs).take (min BlockSize.toNat (x :: xs).length) ::
            fileBlocks BlockSize fuel ((x :: xs).drop (min BlockSize.toNat (x :: xs).length)) := by
        simp [fileBlocks, fileRead, hneg, hsz]
      have hstep : readBlocks GetBlockHashString BlockSize (fuel + 1) (x :: xs)
          newBlockHashList clientBlockMap =
          readBlocks GetBlockHashString BlockSize fuel
            ((x :: xs).drop (min BlockSize.toNat (x :: xs).length))
            (newBlockHashList.append (GetBlockHashString
              ((x :: xs).take (min BlockSize.toNat (x :: xs).length))))
            (clientBlockMap.set (GetBlockHashString
              ((x :: xs).take (min BlockSize.toNat (x :: xs).length)))
              { BlockData := (x :: xs).take (min BlockSize.toNat (x :: xs).length),
                BlockSize := wrapInt32 ((min BlockSize.toNat (x :: xs).length : Nat) : Int) }) := by
        simp [readBlocks, fileRead, hneg, hsz]
      rw [hstep, ih _ _ _ hdrop, hstepF]
      simp only [List.foldl_cons, htl]
      by_cases hcs : fileBlocks BlockSize fuel
          ((x :: xs).drop (min BlockSize.toNat (x :: xs).length)) = []
      · simp [hcs, GoSlice.append, GoSlice.toList]
      · simp [hcs, GoSlice.append, GoSlice.toList]

theorem fileBlocks_nil (BlockSize : Int) (hB : 0 < BlockSize) (fuel : Nat) :
    fileBlocks BlockSize fuel [] = [] := by
  have hneg : ¬ BlockSize < 0 := by omega
  have hsz : BlockSize.toNat ≠ 0 := by omega
  cases fuel with
  | zero => rfl
  | succ fuel => simp [fileBlocks, fileRead, hneg, hsz]

/-- C9, as stated, fails: a nil and an empty non-nil hash list are the same
(empty) sequence, yet `IsBlockHashListModified` returns true on them; so the
scan of the zero-length file `e.txt`, whose entry in `sampleIndex` has version 3
and an empty non-nil hash list, builds a candidate of version 4, not 3. -/
theorem scan_empty_lists_count_as_modified :
    GoSlice.toList (none : GoSlice String) = GoSlice.toList (some []) ∧
    IsBlockHashListModified none (some []) = true ∧
    (scanFile sampleHash sampleClient 1 sampleIndex (GoMap.empty.set "e.txt" [])
        { clientMetaMap := GoMap.empty, clientBlockMap := GoMap.empty, allFileMetaMap := [] }
        "e.txt").bind (fun st => st.clientMetaMap "e.txt") =
      some { Filename := "e.txt", Version := 4, BlockHashList := none } := by
  refine ⟨rfl, rfl, ?_⟩
  decide

/-- C9, amended. `IsBlockHashListModified` returns false exactly when its two
lists are equal as slices: the same sequence, and both nil or both non-nil. For
every name of the directory listing other than `index.txt`, with a positive
block size and enough iterations for the file's bytes, the scan of `ClientSync`
returns and puts in the scan map a candidate that carries the name, whose hash
list is the list of the digests of the blocks of the file in order, nil exactly
when the file has no bytes, and whose version is 1 if the name is not in the
local index, the local index version if this hash list equals the index entry's
list as a slice, and the local index version plus 1 (as `int32`) otherwise. -/
theorem scanFile_candidate_version (GetBlockHashString : List UInt8 → String)
    (client : RPCClient) (fuel : Nat) (localIndexFileMetaMap : GoMap FileMetaData)
    (files : GoMap (List UInt8)) (st : ScanState) (filename : String)
    (hname : filename ≠ "index.txt") (hB : 0 < client.BlockSize)
    (hfuel : ((files filename).getD []).length < fuel) :
    (∀ hashList1 hashList2 : GoSlice String,
      IsBlockHashListModified hashList1 hashList2 = false ↔ hashList1 = hashList2) ∧
    ∃ st' cand,
      scanFile GetBlockHashString client fuel localIndexFileMetaMap files st filename =
        some st' ∧
      st'.clientMetaMap filename = some cand ∧
      ((files filename).getD [] = [] → cand.BlockHashList = none) ∧
      cand.Version =
        (match localIndexFileMetaMap filename with
        | none => 1
        | some fLoc =>
          if cand.BlockHashList = fLoc.BlockHashList then fLoc.Version
          else int32Add fLoc.Version 1) ∧
      cand.Filename = filename ∧
      cand.BlockHashList.toList =
        (fileBlocks client.BlockSize fuel ((files filename).getD [])).map GetBlockHashString ∧
      ((files filename).getD [] ≠ [] → cand.BlockHashList ≠ none) := by
  refine ⟨IsBlockHashListModified_eq_false_iff, ?_⟩
  have hrun := readBlocks_eq GetBlockHashString client.BlockSize hB fuel
    ((files filename).getD []) none st.clientBlockMap hfuel
  obtain ⟨hl, hhl⟩ : ∃ hl : GoSlice String,
      hl = (if fileBlocks client.BlockSize fuel ((files filename).getD []) = [] then none
        else some (GoSlice.toList (none : GoSlice String) ++
          (fileBlocks client.BlockSize fuel ((files filename).getD [])).map
            GetBlockHashString)) :=
    ⟨_, rfl⟩
  rw [← hhl] at hrun
  have hempty : (files filename).getD [] = [] → hl = none := by
    intro h
    rw [hhl, h, fileBlocks_nil client.BlockSize hB fuel]
    simp
  refine ⟨{ clientMetaMap := st.clientMetaMap.set filename
              (scanCandidate localIndexFileMetaMap filename hl)
            clientBlockMap := (fileBlocks client.BlockSize fuel
              ((files filename).getD [])).foldl (fun m c => m.set (GetBlockHashString c)
              { BlockData := c, BlockSize := wrapInt32 (c.length : Int) }) st.clientBlockMap
            allFileMetaMap := addName st.allFileMetaMap filename },
    scanCandidate localIndexFileMetaMap filename hl, ?_, ?_, hempty, ?_, rfl, ?_, ?_⟩
  · simp only [scanFile, hname, if_false, hrun]
  · simp [GoMap.set]
  rotate_left
  · show hl.toList = _
    rw [hhl]
    by_cases hcs : fileBlocks client.BlockSize fuel ((files filename).getD []) = []
    · simp [hcs, GoSlice.toList]
    · simp [hcs, GoSlice.toList]
  · intro hne
    show hl ≠ none
    have hflat := (fileBlocks_flatten client.BlockSize hB fuel ((files filename).getD [])
      hfuel).1
    have hcs : fileBlocks client.BlockSize fuel ((files filename).getD []) ≠ [] := by
      intro h
      rw [h] at hflat
      exact hne hflat.symm
    rw [hhl]
    simp [hcs]
  · simp only [scanCandidate]
    cases hloc : localIndexFileMetaMap filename with
    | none => rfl
    | some fLoc =>
      simp only
      by_cases hmod : IsBlockHashListModified hl fLoc.BlockHashList = true
      · have hne : ¬ hl = fLoc.BlockHashList := by
          intro heq
          have := (IsBlockHashListModified_eq_false_iff _ _).mpr heq
          rw [this] at hmod
          exact Bool.noConfusion hmod
        rw [if_pos hmod, if_neg hne]
      · have hfalse := Bool.eq_false_iff.mpr hmod
        have heq := (IsBlockHashListModified_eq_false_iff _ _).mp hfalse
        rw [if_neg hmod, if_pos heq]

/-- Witness for C9: the scan of `a.txt` of `sampleWorld` with blocks of two bytes. -/
theorem scanFile_candidate_version_witness :
    (∀ hashList1 hashList2 : GoSlice String,
      IsBlockHashListModified hashList1 hashList2 = false ↔ hashList1 = hashList2) ∧
    ∃ st' cand,
      scanFile sampleHash sampleClient 3 sampleLocalIndex sampleWorld.files
        { clientMetaMap := GoMap.empty, clientBlockMap := GoMap.empty, allFileMetaMap := [] }
        "a.txt" = some st' ∧
      st'.clientMetaMap "a.txt" = some cand ∧
      ((sampleWorld.files "a.txt").getD [] = [] → cand.BlockHashList = none) ∧
      cand.Version =
        (match sampleLocalIndex "a.txt" with
        | none => 1
        | some fLoc =>
          if cand.BlockHashList = fLoc.BlockHashList then fLoc.Version
          else int32Add fLoc.Version 1) ∧
      cand.Filename = "a.txt" ∧
      cand.BlockHashList.toList =
        (fileBlocks sampleClient.BlockSize 3 ((sampleWorld.files "a.txt").getD [])).map
          sampleHash ∧
      ((sampleWorld.files "a.txt").getD [] ≠ [] → cand.BlockHashList ≠ none) :=
  scanFile_candidate_version sampleHash sampleClient 3 sampleLocalIndex sampleWorld.files
    { clientMetaMap := GoMap.empty, clientBlockMap := GoMap.empty, allFileMetaMap := [] }
    "a.txt" (by decide) (by decide) (by decide)

/-! ## Theorems: blocks of a file and their round trip through the block store -/

/-- The entry of the block map under a key after the scan of a file: the entry
it had when no block of the file has that digest, a block of the file with that
digest otherwise. -/
theorem scanned_blocks_lookup (GetBlockHashString : List UInt8 → String)
    (cs : List (List UInt8)) (clientBlockMap : GoMap Block) (k : String) :
    ((cs.foldl (fun m c => m.set (GetBlockHashString c)
        { BlockData := c, BlockSize := wrapInt32 (c.length : Int) }) clientBlockMap) k =
        clientBlockMap k ∧ ∀ c ∈ cs, GetBlockHashString c ≠ k) ∨
    ∃ c ∈ cs, GetBlockHashString c = k ∧
      (cs.foldl (fun m c => m.set (GetBlockHashString c)
        { BlockData := c, BlockSize := wrapInt32 (c.length : Int) }) clientBlockMap) k =
        some { BlockData := c, BlockSize := wrapInt32 (c.length : Int) } := by
  induction cs generalizing clientBlockMap with
  | nil => exact Or.inl ⟨rfl, fun c hc => by simp at hc⟩
  | cons c cs ih =>
    rw [List.foldl_cons]
    rcases ih (clientBlockMap.set (GetBlockHashString c)
      { BlockData := c, BlockSize := wrapInt32 (c.length : Int) }) with ⟨heq, hnone⟩ | ⟨c', hc', hk, heq⟩
    · by_cases hck : GetBlockHashString c = k
      · refine Or.inr ⟨c, List.mem_cons_self _ _, hck, ?_⟩
        rw [heq]
        simp [GoMap.set, hck]
      · refine Or.inl ⟨?_, ?_⟩
        · rw [heq]
          have : ¬ k = GetBlockHashString c := fun h => hck h.symm
          simp [GoMap.set, this]
        · intro c0 hc0
          rcases List.mem_cons.mp hc0 with h | h
          · rw [h]; exact hck
          · exact hnone c0 h
    · exact Or.inr ⟨c', List.mem_cons_of_mem _ hc', hk, heq⟩

/-- The entry of the block store under a key after the upload loop: the entry
it had when no uploaded block has that digest, an uploaded block with that
digest otherwise. -/
theorem putBlocks_lookup (GetBlockHashString : List UInt8 → String) (ctx : Context)
    (clientBlockMap : GoMap Block) (hashes : List String) (bs : BlockStore)
    (mp : GoMap Block) (hm : bs.BlockMap = some mp) :
    ∃ mp', putBlocks GetBlockHashString ctx clientBlockMap hashes bs =
        some { BlockMap := some mp' } ∧
      ∀ k, (mp' k = mp k ∧ ∀ h ∈ hashes, GetBlockHashString
              ((clientBlockMap h).getD { BlockData := [], BlockSize := 0 }).BlockData ≠ k) ∨
        ∃ h ∈ hashes, GetBlockHashString
            ((clientBlockMap h).getD { BlockData := [], BlockSize := 0 }).BlockData = k ∧
          mp' k = some ((clientBlockMap h).getD { BlockData := [], BlockSize := 0 }) := by
  induction hashes generalizing bs mp with
  | nil =>
    refine ⟨mp, ?_, fun k => Or.inl ⟨rfl, fun h hh => by simp at hh⟩⟩
    cases bs
    simp only at hm
    simp [putBlocks, hm]
  | cons h rest ih =>
    obtain ⟨mp', hrun, hall⟩ := ih
      { BlockMap := some (mp.set
        (GetBlockHashString ((clientBlockMap h).getD { BlockData := [], BlockSize := 0 }).BlockData)
        ((clientBlockMap h).getD { BlockData := [], BlockSize := 0 })) } _ rfl
    refine ⟨mp', ?_, ?_⟩
    · unfold putBlocks
      rw [RPCClient_PutBlock_eq GetBlockHashString ctx bs mp _ hm]
      exact hrun
    · intro k
      rcases hall k with ⟨heq, hnone⟩ | ⟨h', hh', hk, heq⟩
      · by_cases hck : GetBlockHashString
            ((clientBlockMap h).getD { BlockData := [], BlockSize := 0 }).BlockData = k
        · refine Or.inr ⟨h, List.mem_cons_self _ _, hck, ?_⟩
          rw [heq]
          simp [GoMap.set, hck]
        · refine Or.inl ⟨?_, ?_⟩
          · rw [heq]
            have : ¬ k = GetBlockHashString
                ((clientBlockMap h).getD { BlockData := [], BlockSize := 0 }).BlockData :=
              fun e => hck e.symm
            simp [GoMap.set, this]
          · intro h0 hh0
            rcases List.mem_cons.mp hh0 with e | e
            · rw [e]; exact hck
            · exact hnone h0 e
      · exact Or.inr ⟨h', List.mem_cons_of_mem _ hh', hk, heq⟩

/-- The bytes the download loop writes: for every hash in order, the data of
the block the store holds under it, and nothing for a hash it does not hold. -/
theorem downloadBytes_eq (ctx : Context) (bs : BlockStore) (blockHashList : List String) :
    downloadBytes ctx bs blockHashList =
      (blockHashList.map fun h => ((bs.lookup h).map Block.BlockData).getD []).flatten := by
  unfold downloadBytes
  congr 1
  apply List.map_congr_left
  intro h _
  unfold RPCClient.GetBlock BlockStore.GetBlock
  cases bs.lookup h <;> rfl

/-- The tombstone test holds exactly for the one-element list `["0"]`. -/
theorem isTombstone_iff (blockHashList : GoSlice String) :
    isTombstone blockHashList = true ↔ blockHashList.toList = ["0"] := by
  unfold isTombstone
  cases hl : blockHashList.toList with
  | nil => simp
  | cons h t =>
    cases t with
    | nil => simp
    | cons h2 t2 => simp

theorem int32Sub_add_one (v : Int) : int32Sub (int32Add v 1) v = 1 := by
  unfold int32Sub int32Add wrapInt32
  omega

/-- A call of `UpdateFile` that returns an error returns no version and leaves
the store as it was. -/
theorem UpdateFile_err_store (m : MetaStore) (ctx : Context) (cand : FileMetaData)
    (r : UpdateFileReturn) (hr : m.UpdateFile ctx cand = some r) (herr : r.err ≠ none) :
    r.store = m ∧ r.version = none := by
  unfold MetaStore.UpdateFile at hr
  simp only at hr
  cases hl : m.lookup cand.Filename with
  | none =>
    rw [hl] at hr
    simp only at hr
    cases ha : m.assign cand.Filename cand with
    | none => rw [ha] at hr; simp at hr
    | some m' =>
      rw [ha] at hr
      simp only [Option.map_some', Option.some.injEq] at hr
      subst hr
      simp at herr
  | some cur =>
    rw [hl] at hr
    simp only at hr
    by_cases h1 : int32Sub cand.Version cur.Version = 1
    · rw [if_pos h1] at hr
      cases ha : m.assign cand.Filename cand with
      | none => rw [ha] at hr; simp at hr
      | some m' =>
        rw [ha] at hr
        simp only [Option.map_some', Option.some.injEq] at hr
        subst hr
        simp at herr
    · rw [if_neg h1] at hr
      simp only [Option.some.injEq] at hr
      subst hr
      exact ⟨rfl, rfl⟩

/-! ## Theorems: conflicts -/

/-- The files after a pull of the record `fServer` for `fname`. -/
theorem pullFile_files (ctx : Context) (w : World) (fname : String) (fServer : FileMetaData) :
    (pullFile ctx w fname fServer).files fname =
      (if fServer.BlockHashList.toList = ["0"] then none
       else some ((fServer.BlockHashList.toList.map fun h =>
         ((w.blockStore.lookup h).map Block.BlockData).getD []).flatten)) ∧
    ∀ k, k ≠ fname → (pullFile ctx w fname fServer).files k = w.files k := by
  unfold pullFile
  by_cases ht : isTombstone fServer.BlockHashList = true
  · have hl := (isTombstone_iff _).mp ht
    simp only [ht, if_true, hl]
    refine ⟨by simp [GoMap.remove], fun k hk => by simp [GoMap.remove, hk]⟩
  · have hl : ¬ fServer.BlockHashList.toList = ["0"] := fun h => ht ((isTombstone_iff _).mpr h)
    simp only [ht, hl, if_false]
    refine ⟨by simp [GoMap.set, downloadBytes_eq], fun k hk => by simp [GoMap.set, hk]⟩

/-- What the body of the final loop does when `UpdateFile` rejects the pushed
candidate and the snapshot has a record for the name. -/
theorem reconcileFile_rejected (GetBlockHashString : List UInt8 → String) (ctx : Context)
    (clientMetaMap : GoMap FileMetaData) (clientBlockMap : GoMap Block)
    (localIndexFileMetaMap remoteFileInfoMap : GoMap FileMetaData)
    (w : World) (fname : String) (cand fServer : FileMetaData) (r : UpdateFileReturn)
    (bmp' : GoMap Block)
    (hc : pushCandidate clientMetaMap localIndexFileMetaMap fname = some cand)
    (hup : (match clientMetaMap fname with
      | some _ => putBlocks GetBlockHashString ctx clientBlockMap cand.BlockHashList.toList
          w.blockStore
      | none => some w.blockStore) = some { BlockMap := some bmp' })
    (hr : w.metaStore.UpdateFile ctx cand = some r) (herr : r.err ≠ none)
    (hs : remoteFileInfoMap fname = some fServer) :
    reconcileFile GetBlockHashString ctx clientMetaMap clientBlockMap localIndexFileMetaMap
        remoteFileInfoMap w fname =
      some (pullFile ctx
        { w with blockStore := { BlockMap := some bmp' },
                 updateFileCalls := w.updateFileCalls ++ [cand] } fname fServer) := by
  rw [reconcileFile_push GetBlockHashString ctx clientMetaMap clientBlockMap
    localIndexFileMetaMap remoteFileInfoMap w fname cand _ r hc hup hr]
  obtain ⟨hstore, _⟩ := UpdateFile_err_store w.metaStore ctx cand r hr herr
  cases he : r.err with
  | none => exact absurd he herr
  | some e =>
    simp only [hs, hstore]

/-- What the scan of a file leaves: the hash list is the list of the digests of
the blocks of the file, and the block map holds under every hash of the list a
block of the file with that digest. -/
theorem readBlocks_result (GetBlockHashString : List UInt8 → String) (BlockSize : Int)
    (hB : 0 < BlockSize) (fuel : Nat) (content : List UInt8) (hfuel : content.length < fuel)
    (clientBlockMap0 : GoMap Block) (hashList : GoSlice String) (clientBlockMap : GoMap Block)
    (hscan : readBlocks GetBlockHashString BlockSize fuel content none clientBlockMap0 =
      some (hashList, clientBlockMap)) :
    hashList.toList = (fileBlocks BlockSize fuel content).map GetBlockHashString ∧
    ∀ h ∈ hashList.toList, ∃ c ∈ fileBlocks BlockSize fuel content,
      GetBlockHashString c = h ∧
      clientBlockMap h = some { BlockData := c, BlockSize := wrapInt32 (c.length : Int) } := by
  rw [readBlocks_eq GetBlockHashString BlockSize hB fuel content none clientBlockMap0 hfuel]
    at hscan
  simp only [Option.some.injEq, Prod.mk.injEq] at hscan
  obtain ⟨hl, hbm⟩ := hscan
  have hlist : hashList.toList = (fileBlocks BlockSize fuel content).map GetBlockHashString := by
    rw [← hl]
    by_cases hcs : fileBlocks BlockSize fuel content = []
    · simp [hcs, GoSlice.toList]
    · simp [hcs, GoSlice.toList]
  refine ⟨hlist, ?_⟩
  intro h hh
  rw [hlist] at hh
  obtain ⟨c0, hc0, hc0h⟩ := List.mem_map.mp hh
  rcases scanned_blocks_lookup GetBlockHashString (fileBlocks BlockSize fuel content)
    clientBlockMap0 h with ⟨_, hnone⟩ | ⟨c, hc, hk, heq⟩
  · exact absurd hc0h (hnone c0 hc0)
  · exact ⟨c, hc, hk, by rw [← hbm]; exact heq⟩

/-- The block store after the upload for a name: under every key, the entry it
had before or an uploaded block whose digest is the key. -/
theorem upload_lookup (GetBlockHashString : List UInt8 → String) (ctx : Context)
    (clientMetaMap : GoMap FileMetaData) (clientBlockMap : GoMap Block)
    (bs : BlockStore) (fname : String) (cand : FileMetaData) (bmp : GoMap Block)
    (hbs : bs.BlockMap = some bmp)
    (hcand : ∀ c, clientMetaMap fname = some c → c = cand) :
    ∃ bmp', (match clientMetaMap fname with
        | some _ => putBlocks GetBlockHashString ctx clientBlockMap cand.BlockHashList.toList bs
        | none => some bs) = some { BlockMap := some bmp' } ∧
      ∀ k, bmp' k = bmp k ∨
        ∃ b ∈ uploadedBlocks clientMetaMap clientBlockMap fname,
          GetBlockHashString b.BlockData = k ∧ bmp' k = some b := by
  cases hcm : clientMetaMap fname with
  | none =>
    refine ⟨bmp, ?_, fun k => Or.inl rfl⟩
    cases bs
    simp only at hbs
    simp [hbs]
  | some c =>
    have hceq := hcand c hcm
    subst hceq
    obtain ⟨bmp', hrun, hall⟩ := putBlocks_lookup GetBlockHashString ctx clientBlockMap
      c.BlockHashList.toList bs bmp hbs
    refine ⟨bmp', hrun, ?_⟩
    intro k
    rcases hall k with ⟨heq, _⟩ | ⟨h, hh, hk, heq⟩
    · exact Or.inl heq
    · refine Or.inr ⟨_, ?_, hk, heq⟩
      simp only [uploadedBlocks, hcm]
      exact List.mem_map.mpr ⟨h, hh, rfl⟩

theorem pushCandidate_of_scan (clientMetaMap localIndexFileMetaMap : GoMap FileMetaData)
    (fname : String) (cand : FileMetaData)
    (hc : pushCandidate clientMetaMap localIndexFileMetaMap fname = some cand) :
    ∀ c, clientMetaMap fname = some c → c = cand := by
  intro c hcm
  simp only [pushCandidate, hcm, Option.some.injEq] at hc
  exact hc

/-- Two clients edit the same file from the same base version; the first
client's push is accepted, the second client's push is rejected, and the second
client ends with the first client's bytes and record. -/
theorem second_committer_pulls_first (GetBlockHashString : List UInt8 → String)
    (ctx : Context) (f : String) (clientA : RPCClient) (fuelA : Nat) (cA : List UInt8)
    (bmA0 bmA cbmA : GoMap Block) (hsA : GoSlice String)
    (cmA liA remA : GoMap FileMetaData) (wA : World)
    (mp : GoMap FileMetaData) (bmp : GoMap Block) (base idxA : FileMetaData)
    (cmB : GoMap FileMetaData) (cbmB : GoMap Block) (liB : GoMap FileMetaData)
    (candB : FileMetaData) (wB : World)
    (hB : 0 < clientA.BlockSize) (hfuel : cA.length < fuelA)
    (hscan : readBlocks GetBlockHashString clientA.BlockSize fuelA cA none bmA0 =
      some (hsA, bmA))
    (hcmA : cmA f = some (scanCandidate liA f hsA))
    (hcbmA : ∀ h ∈ hsA.toList, cbmA h = bmA h)
    (hliA : liA f = some idxA)
    (hmod : IsBlockHashListModified hsA idxA.BlockHashList = true)
    (hms : wA.metaStore.FileMetaMap = some mp) (hbase : mp f = some base)
    (hidx : idxA.Version = base.Version)
    (hbs : wA.blockStore.BlockMap = some bmp)
    (hpushB : pushCandidate cmB liB f = some candB) (hnameB : candB.Filename = f)
    (hverB : candB.Version = int32Add base.Version 1)
    (hinj : ∀ x ∈ fileBlocks clientA.BlockSize fuelA cA ++
        (uploadedBlocks cmB cbmB f).map Block.BlockData,
      ∀ y ∈ fileBlocks clientA.BlockSize fuelA cA ++
        (uploadedBlocks cmB cbmB f).map Block.BlockData,
      GetBlockHashString x = GetBlockHashString y → x = y)
    (hz : ∀ c ∈ fileBlocks clientA.BlockSize fuelA cA, GetBlockHashString c ≠ "0") :
    ∃ wA' wB',
      reconcileFile GetBlockHashString ctx cmA cbmA liA remA wA f = some wA' ∧
      wA'.metaStore.lookup f = some (scanCandidate liA f hsA) ∧
      reconcileFile GetBlockHashString ctx cmB cbmB liB
        (RPCClient.GetFileInfoMap ctx wA'.metaStore)
        { wB with metaStore := wA'.metaStore, blockStore := wA'.blockStore } f = some wB' ∧
      wB'.files f = some cA ∧
      wB'.indexLines = wB.indexLines ++ [indexLine f (int32Add base.Version 1) hsA] ∧
      wB'.metaStore = wA'.metaStore := by
  -- the first client's scan
  obtain ⟨hlist, hblocks⟩ := readBlocks_result GetBlockHashString clientA.BlockSize hB fuelA
    cA hfuel bmA0 hsA bmA hscan
  obtain ⟨hflat, _⟩ := fileBlocks_flatten clientA.BlockSize hB fuelA cA hfuel
  -- the first client's candidate
  have hcandA_ver : (scanCandidate liA f hsA).Version = int32Add base.Version 1 := by
    simp [scanCandidate, hliA, hmod, hidx]
  have hpushA : pushCandidate cmA liA f = some (scanCandidate liA f hsA) := by
    simp [pushCandidate, hcmA]
  -- the first client's upload
  obtain ⟨bmp1, hupA, hlookA⟩ := putBlocks_lookup GetBlockHashString ctx cbmA hsA.toList
    wA.blockStore bmp hbs
  have hupA' : (match cmA f with
      | some _ => putBlocks GetBlockHashString ctx cbmA
          (scanCandidate liA f hsA).BlockHashList.toList wA.blockStore
      | none => some wA.blockStore) = some { BlockMap := some bmp1 } := by
    rw [hcmA]
    exact hupA
  -- every block of the file sits under its digest after the first upload
  have hstoreA : ∀ c ∈ fileBlocks clientA.BlockSize fuelA cA,
      ∃ b, bmp1 (GetBlockHashString c) = some b ∧ b.BlockData = c := by
    intro c hc
    have hmem : GetBlockHashString c ∈ hsA.toList := by
      rw [hlist]
      exact List.mem_map.mpr ⟨c, hc, rfl⟩
    have hblk : ∀ h ∈ hsA.toList, ∃ c' ∈ fileBlocks clientA.BlockSize fuelA cA,
        GetBlockHashString c' = h ∧
        (cbmA h).getD { BlockData := [], BlockSize := 0 } =
          { BlockData := c', BlockSize := wrapInt32 (c'.length : Int) } := by
      intro h hh
      obtain ⟨c', hc', hk, heq⟩ := hblocks h hh
      exact ⟨c', hc', hk, by rw [hcbmA h hh, heq]; rfl⟩
    rcases hlookA (GetBlockHashString c) with ⟨_, hnone⟩ | ⟨h, hh, hk, heq⟩
    · obtain ⟨c', _, hk', hb⟩ := hblk _ hmem
      have := hnone _ hmem
      rw [hb] at this
      exact absurd hk' this
    · obtain ⟨c', hc', _, hb⟩ := hblk h hh
      rw [hb] at hk heq
      have hcc : c' = c := hinj c' (List.mem_append_left _ hc') c (List.mem_append_left _ hc) hk
      exact ⟨_, heq, hcc⟩
  -- the first client's push is accepted
  have haccA := UpdateFile_next wA.metaStore mp ctx (scanCandidate liA f hsA) base hms hbase
    (by rw [hcandA_ver]; exact int32Sub_add_one base.Version)
  have hrunA := reconcileFile_push GetBlockHashString ctx cmA cbmA liA remA wA f
    (scanCandidate liA f hsA) _ _ hpushA hupA' haccA
  simp only at hrunA
  -- the second client's upload on the store the first client left
  obtain ⟨bmp2, hupB, hlookB⟩ := upload_lookup GetBlockHashString ctx cmB cbmB
    { BlockMap := some bmp1 } f candB bmp1 rfl (pushCandidate_of_scan cmB liB f candB hpushB)
  have hstoreB : ∀ c ∈ fileBlocks clientA.BlockSize fuelA cA,
      ((({ BlockMap := some bmp2 } : BlockStore).lookup (GetBlockHashString c)).map
        Block.BlockData).getD [] = c := by
    intro c hc
    obtain ⟨b, hb, hbc⟩ := hstoreA c hc
    rcases hlookB (GetBlockHashString c) with heq | ⟨b', hb', hk, heq⟩
    · simp [BlockStore.lookup, heq, hb, hbc]
    · have hcc : b'.BlockData = c :=
        hinj b'.BlockData (List.mem_append_right _ (List.mem_map.mpr ⟨b', hb', rfl⟩)) c
          (List.mem_append_left _ hc) hk
      simp [BlockStore.lookup, heq, hcc]
  -- the second client's push is rejected
  have hrejB := UpdateFile_reject
    ({ wA.metaStore with FileMetaMap := some (mp.set f (scanCandidate liA f hsA)) } : MetaStore)
    (mp.set f (scanCandidate liA f hsA)) ctx candB (scanCandidate liA f hsA) rfl
    (by rw [hnameB]; simp [GoMap.set])
    (by rw [hverB, hcandA_ver, int32Sub_self]; decide)
  have hsnap : RPCClient.GetFileInfoMap ctx
      ({ wA.metaStore with FileMetaMap := some (mp.set f (scanCandidate liA f hsA)) } : MetaStore)
      f = some (scanCandidate liA f hsA) := by
    simp [RPCClient.GetFileInfoMap, MetaStore.GetFileInfoMap, GoMap.set]
  have hrunB := reconcileFile_rejected GetBlockHashString ctx cmB cbmB liB
    (RPCClient.GetFileInfoMap ctx
      ({ wA.metaStore with FileMetaMap := some (mp.set f (scanCandidate liA f hsA)) } : MetaStore))
    { wB with
      metaStore := { wA.metaStore with FileMetaMap := some (mp.set f (scanCandidate liA f hsA)) }
      blockStore := { BlockMap := some bmp1 } }
    f candB (scanCandidate liA f hsA) _ bmp2 hpushB hupB hrejB (by simp) hsnap
  refine ⟨_, _, hrunA, ?_, hrunB, ?_, ?_, rfl⟩
  · simp [MetaStore.lookup, scanCandidate, GoMap.set]
  · rw [(pullFile_files ctx _ f (scanCandidate liA f hsA)).1]
    have hl : (scanCandidate liA f hsA).BlockHashList.toList =
        (fileBlocks clientA.BlockSize fuelA cA).map GetBlockHashString := hlist
    have hnt : ¬ (scanCandidate liA f hsA).BlockHashList.toList = ["0"] := by
      rw [hl]
      intro h0
      cases hcs : fileBlocks clientA.BlockSize fuelA cA with
      | nil => rw [hcs] at h0; simp at h0
      | cons c t =>
        rw [hcs] at h0
        simp only [List.map_cons, List.cons.injEq] at h0
        exact hz c (by rw [hcs]; exact List.mem_cons_self _ _) h0.1
    rw [if_neg hnt, hl, List.map_map]
    have hmap : (fileBlocks clientA.BlockSize fuelA cA).map
        ((fun h => ((({ BlockMap := some bmp2 } : BlockStore).lookup h).map
          Block.BlockData).getD []) ∘ GetBlockHashString) =
        fileBlocks clientA.BlockSize fuelA cA := by
      conv_rhs => rw [← List.map_id (fileBlocks clientA.BlockSize fuelA cA)]
      apply List.map_congr_left
      intro c hc
      exact hstoreB c hc
    simp only at hmap ⊢
    rw [hmap, hflat]
  · rw [pullFile_indexLines, hcandA_ver]
    rfl

/-- C10, as stated, fails when the snapshot is older than the store: the
first client pushes `a.txt` with the bytes 1, 7, 2 from version 1 and is
accepted at version 2; the second client, whose snapshot is what
`GetFileInfoMap` returned before that commit and still holds version 1 with
the one block of the bytes 1, 7, pushes its own version 2 and is rejected. It ends with the bytes 1, 7 and the
index line of version 1, not with the first committer's bytes and record. -/
theorem stale_snapshot_pull_sample :
    ∃ wA' wB',
      firstWorld.files "a.txt" = some [1, 7, 2] ∧
      reconcileFile sampleHash liveContext
        (GoMap.empty.set "a.txt" (scanCandidate baseIndex "a.txt" (some ["h1", "h2"])))
        firstBlockMap baseIndex baseIndex firstWorld "a.txt" = some wA' ∧
      wA'.metaStore.lookup "a.txt" =
        some { Filename := "a.txt", Version := 2, BlockHashList := some ["h1", "h2"] } ∧
      reconcileFile sampleHash liveContext secondScanMap secondBlockMap baseIndex
        (RPCClient.GetFileInfoMap liveContext firstWorld.metaStore)
        { conflictWorld with metaStore := wA'.metaStore, blockStore := wA'.blockStore }
        "a.txt" = some wB' ∧
      wB'.metaStore.lookup "a.txt" =
        some { Filename := "a.txt", Version := 2, BlockHashList := some ["h1", "h2"] } ∧
      wB'.files "a.txt" = some [1, 7] ∧
      wB'.indexLines = ["a.txt,1,h1\n"] := by
  refine ⟨_, _, rfl, rfl, ?_, rfl, ?_, ?_, ?_⟩ <;> decide

/-- C10, amended. First, whenever `UpdateFile` rejects the candidate that the
body of the final loop of `ClientSync` pushed for a name, and the remote
snapshot fetched before the loop has a record for the name, the body returns
with the metadata store unchanged, so that the snapshot record is the store's
current record whenever the snapshot agrees with the store on the name; the
line written to the index is the name, the version and the hash list of the
snapshot record; the local file is removed if the snapshot hash list is the
tombstone `["0"]`, otherwise it holds the concatenation, in the order of the
snapshot hash list, of the data of the blocks the block store holds under
these hashes; other files are untouched. Second, when a first client scans its
edited file and pushes it from the base version, and a second client whose
snapshot is fetched after that commit then pushes a candidate for the same
name from the same base version, with the digest injective on the blocks of
the two clients and never `"0"` on the first client's blocks, the first push is
accepted, the second is rejected, and the second client ends with the first
client's bytes in the file and the first client's record in the index. -/
theorem rejected_push_pulls_remote (GetBlockHashString : List UInt8 → String)
    (ctx : Context) :
    (∀ (clientMetaMap : GoMap FileMetaData) (clientBlockMap : GoMap Block)
      (localIndexFileMetaMap remoteFileInfoMap : GoMap FileMetaData) (w : World)
      (fname : String) (cand fServer : FileMetaData) (r : UpdateFileReturn)
      (bmp : GoMap Block),
      w.blockStore.BlockMap = some bmp →
      pushCandidate clientMetaMap localIndexFileMetaMap fname = some cand →
      w.metaStore.UpdateFile ctx cand = some r → r.err ≠ none →
      remoteFileInfoMap fname = some fServer →
      ∃ w', reconcileFile GetBlockHashString ctx clientMetaMap clientBlockMap
          localIndexFileMetaMap remoteFileInfoMap w fname = some w' ∧
        w'.metaStore = w.metaStore ∧
        (remoteFileInfoMap fname = w.metaStore.lookup fname →
          w'.metaStore.lookup fname = some fServer) ∧
        w'.indexLines = w.indexLines ++
          [fname ++ "," ++ toString fServer.Version ++ "," ++
            " ".intercalate fServer.BlockHashList.toList ++ "\n"] ∧
        w'.files fname =
          (if fServer.BlockHashList.toList = ["0"] then none
           else some ((fServer.BlockHashList.toList.map fun h =>
             ((w'.blockStore.lookup h).map Block.BlockData).getD []).flatten)) ∧
        ∀ k, k ≠ fname → w'.files k = w.files k) ∧
    (∀ (f : String) (clientA : RPCClient) (fuelA : Nat) (cA : List UInt8)
      (bmA0 bmA cbmA : GoMap Block) (hsA : GoSlice String)
      (cmA liA remA : GoMap FileMetaData) (wA : World)
      (mp : GoMap FileMetaData) (bmp : GoMap Block) (base idxA : FileMetaData)
      (cmB : GoMap FileMetaData) (cbmB : GoMap Block) (liB : GoMap FileMetaData)
      (candB : FileMetaData) (wB : World),
      0 < clientA.BlockSize → cA.length < fuelA →
      readBlocks GetBlockHashString clientA.BlockSize fuelA cA none bmA0 = some (hsA, bmA) →
      cmA f = some (scanCandidate liA f hsA) →
      (∀ h ∈ hsA.toList, cbmA h = bmA h) →
      liA f = some idxA →
      IsBlockHashListModified hsA idxA.BlockHashList = true →
      wA.metaStore.FileMetaMap = some mp → mp f = some base →
      idxA.Version = base.Version →
      wA.blockStore.BlockMap = some bmp →
      pushCandidate cmB liB f = some candB → candB.Filename = f →
      candB.Version = int32Add base.Version 1 →
      (∀ x ∈ fileBlocks clientA.BlockSize fuelA cA ++
          (uploadedBlocks cmB cbmB f).map Block.BlockData,
        ∀ y ∈ fileBlocks clientA.BlockSize fuelA cA ++
          (uploadedBlocks cmB cbmB f).map Block.BlockData,
        GetBlockHashString x = GetBlockHashString y → x = y) →
      (∀ c ∈ fileBlocks clientA.BlockSize fuelA cA, GetBlockHashString c ≠ "0") →
      ∃ wA' wB',
        reconcileFile GetBlockHashString ctx cmA cbmA liA remA wA f = some wA' ∧
        wA'.metaStore.lookup f = some (scanCandidate liA f hsA) ∧
        reconcileFile GetBlockHashString ctx cmB cbmB liB
          (RPCClient.GetFileInfoMap ctx wA'.metaStore)
          { wB with metaStore := wA'.metaStore, blockStore := wA'.blockStore } f = some wB' ∧
        wB'.files f = some cA ∧
        wB'.indexLines = wB.indexLines ++
          [f ++ "," ++ toString (int32Add base.Version 1) ++ "," ++
            " ".intercalate hsA.toList ++ "\n"] ∧
        wB'.metaStore = wA'.metaStore) := by
  constructor
  · intro clientMetaMap clientBlockMap localIndexFileMetaMap remoteFileInfoMap w fname cand
      fServer r bmp hbs hc hr herr hs
    obtain ⟨bmp', hup, _⟩ := upload_lookup GetBlockHashString ctx clientMetaMap clientBlockMap
      w.blockStore fname cand bmp hbs
      (pushCandidate_of_scan clientMetaMap localIndexFileMetaMap fname cand hc)
    have hrun := reconcileFile_rejected GetBlockHashString ctx clientMetaMap clientBlockMap
      localIndexFileMetaMap remoteFileInfoMap w fname cand fServer r bmp' hc hup hr herr hs
    have hfiles := pullFile_files ctx
      { w with blockStore := { BlockMap := some bmp' },
               updateFileCalls := w.updateFileCalls ++ [cand] } fname fServer
    refine ⟨_, hrun, rfl, ?_, rfl, hfiles.1, hfiles.2⟩
    intro hsame
    rw [← hs, hsame]
    rfl
  · intro f clientA fuelA cA bmA0 bmA cbmA hsA cmA liA remA wA mp bmp base idxA cmB cbmB liB
      candB wB hB hfuel hscan hcmA hcbmA hliA hmod hms hbase hidx hbs hpushB hnameB hverB
      hinj hz
    exact second_committer_pulls_first GetBlockHashString ctx f clientA fuelA cA bmA0 bmA cbmA
      hsA cmA liA remA wA mp bmp base idxA cmB cbmB liB candB wB hB hfuel hscan hcmA hcbmA
      hliA hmod hms hbase hidx hbs hpushB hnameB hverB hinj hz

/-- Witness for C10. In `conflictWorld` the push of `a.txt` at version 5 is
rejected and the record of the snapshot, with the one hash `h1`, is pulled. With the
first client holding the bytes 1, 7, 2 and the second the bytes 3, 3, both
edited from version 1, the second client ends with the bytes 1, 7, 2. -/
theorem rejected_push_pulls_remote_witness :
    (∃ w', reconcileFile sampleHash liveContext
        (GoMap.empty.set "a.txt"
          { Filename := "a.txt", Version := 5, BlockHashList := some ["h-other"] })
        secondBlockMap baseIndex baseIndex conflictWorld "a.txt" = some w' ∧
      w'.metaStore = conflictWorld.metaStore ∧
      (baseIndex "a.txt" = conflictWorld.metaStore.lookup "a.txt" →
        w'.metaStore.lookup "a.txt" = some sampleRecord) ∧
      w'.indexLines = conflictWorld.indexLines ++ ["a.txt,1,h1\n"] ∧
      w'.files "a.txt" =
        (if GoSlice.toList (some ["h1"]) = ["0"] then none
         else some (((GoSlice.toList (some ["h1"])).map fun h =>
           ((w'.blockStore.lookup h).map Block.BlockData).getD []).flatten)) ∧
      ∀ k, k ≠ "a.txt" → w'.files k = conflictWorld.files k) ∧
    (∃ wA' wB',
      reconcileFile sampleHash liveContext
        (GoMap.empty.set "a.txt" (scanCandidate baseIndex "a.txt" (some ["h1", "h2"])))
        firstBlockMap baseIndex baseIndex firstWorld "a.txt" = some wA' ∧
      wA'.metaStore.lookup "a.txt" =
        some (scanCandidate baseIndex "a.txt" (some ["h1", "h2"])) ∧
      reconcileFile sampleHash liveContext secondScanMap secondBlockMap baseIndex
        (RPCClient.GetFileInfoMap liveContext wA'.metaStore)
        { conflictWorld with metaStore := wA'.metaStore, blockStore := wA'.blockStore }
        "a.txt" = some wB' ∧
      wB'.files "a.txt" = some [1, 7, 2] ∧
      wB'.indexLines = conflictWorld.indexLines ++ ["a.txt,2,h1 h2\n"] ∧
      wB'.metaStore = wA'.metaStore) :=
  ⟨(rejected_push_pulls_remote sampleHash liveContext).1
      (GoMap.empty.set "a.txt"
        { Filename := "a.txt", Version := 5, BlockHashList := some ["h-other"] })
      secondBlockMap baseIndex baseIndex conflictWorld "a.txt"
      { Filename := "a.txt", Version := 5, BlockHashList := some ["h-other"] }
      sampleRecord
      { version := none, err := some GoError.incorrectVersion, store := sampleStore }
      (GoMap.empty.set "h1" sampleBlock) rfl rfl rfl (by decide) rfl,
   (rejected_push_pulls_remote sampleHash liveContext).2 "a.txt" sampleClient 4 [1, 7, 2]
      GoMap.empty firstBlockMap firstBlockMap (some ["h1", "h2"])
      (GoMap.empty.set "a.txt" (scanCandidate baseIndex "a.txt" (some ["h1", "h2"])))
      baseIndex baseIndex firstWorld baseIndex GoMap.empty sampleRecord sampleRecord
      secondScanMap secondBlockMap baseIndex
      { Filename := "a.txt", Version := 2, BlockHashList := some ["h-other"] }
      conflictWorld (by decide) (by decide) rfl rfl (fun _ _ => rfl) rfl rfl rfl rfl rfl rfl
      rfl rfl rfl (by decide) (by decide)⟩

/-! ## Theorems: the round trip of a scanned file -/

/-- The block store after the upload of the blocks of a scanned file, with a
digest that is injective on these blocks: every block sits under its digest. -/
theorem putBlocks_scanned (GetBlockHashString : List UInt8 → String) (ctx : Context)
    (blocks : List (List UInt8)) (hashes : List String) (clientBlockMap : GoMap Block)
    (bs : BlockStore) (bmp : GoMap Block) (hbs : bs.BlockMap = some bmp)
    (hblk : ∀ h ∈ hashes, ∃ c ∈ blocks, GetBlockHashString c = h ∧
      clientBlockMap h = some { BlockData := c, BlockSize := wrapInt32 (c.length : Int) })
    (hinj : ∀ x ∈ blocks, ∀ y ∈ blocks, GetBlockHashString x = GetBlockHashString y → x = y) :
    ∃ bmp', putBlocks GetBlockHashString ctx clientBlockMap hashes bs =
        some { BlockMap := some bmp' } ∧
      ∀ c ∈ blocks, GetBlockHashString c ∈ hashes →
        ∃ b, bmp' (GetBlockHashString c) = some b ∧ b.BlockData = c := by
  obtain ⟨bmp', hrun, hlook⟩ := putBlocks_lookup GetBlockHashString ctx clientBlockMap hashes
    bs bmp hbs
  refine ⟨bmp', hrun, ?_⟩
  intro c hc hmem
  have hget : ∀ h ∈ hashes, ∃ c' ∈ blocks, GetBlockHashString c' = h ∧
      (clientBlockMap h).getD { BlockData := [], BlockSize := 0 } =
        { BlockData := c', BlockSize := wrapInt32 (c'.length : Int) } := by
    intro h hh
    obtain ⟨c', hc', hk, heq⟩ := hblk h hh
    exact ⟨c', hc', hk, by rw [heq]; rfl⟩
  rcases hlook (GetBlockHashString c) with ⟨_, hnone⟩ | ⟨h, hh, hk, heq⟩
  · obtain ⟨c', _, hk', hb⟩ := hget _ hmem
    have := hnone _ hmem
    rw [hb] at this
    exact absurd hk' this
  · obtain ⟨c', hc', _, hb⟩ := hget h hh
    rw [hb] at hk heq
    exact ⟨_, heq, hinj c' hc' c hc hk⟩

/-- The download of the digests of a list of blocks from a store that holds
every block under its digest gives the concatenation of the blocks. -/
theorem downloadBytes_blocks (GetBlockHashString : List UInt8 → String) (ctx : Context)
    (bs : BlockStore) (blocks : List (List UInt8))
    (hheld : ∀ c ∈ blocks, ∃ b, bs.lookup (GetBlockHashString c) = some b ∧ b.BlockData = c) :
    downloadBytes ctx bs (blocks.map GetBlockHashString) = blocks.flatten := by
  rw [downloadBytes_eq, List.map_map]
  congr 1
  conv_rhs => rw [← List.map_id blocks]
  apply List.map_congr_left
  intro c hc
  obtain ⟨b, hb, hbc⟩ := hheld c hc
  simp [hb, hbc]

/-- C12. For every file content and every positive block size, with enough
iterations for the bytes, the block-reading loop of `ClientSync` returns; the
blocks it cuts (`fileBlocks`) each have at least 1 and at most `BlockSize`
bytes and their concatenation is the content; the hash list is the list of
their digests in order, nil with no block for a zero-length file, and the block
map holds under every hash a block of the file with that digest. When the
digest is injective on these blocks, the data of the blocks looked up in the
block map by the hash list, in order, concatenate to the content, and so do the
bytes downloaded by the hash list from any block store (with a non-nil map) to
which the blocks were uploaded. -/
theorem scan_round_trip (GetBlockHashString : List UInt8 → String) (BlockSize : Int)
    (fuel : Nat) (content : List UInt8) (clientBlockMap0 : GoMap Block)
    (hB : 0 < BlockSize) (hfuel : content.length < fuel) :
    ∃ hashList clientBlockMap,
      readBlocks GetBlockHashString BlockSize fuel content none clientBlockMap0 =
        some (hashList, clientBlockMap) ∧
      (∀ c ∈ fileBlocks BlockSize fuel content, 1 ≤ c.length ∧ (c.length : Int) ≤ BlockSize) ∧
      (fileBlocks BlockSize fuel content).flatten = content ∧
      hashList.toList = (fileBlocks BlockSize fuel content).map GetBlockHashString ∧
      (content = [] → hashList = none ∧ fileBlocks BlockSize fuel content = []) ∧
      (∀ h ∈ hashList.toList, ∃ c ∈ fileBlocks BlockSize fuel content,
        GetBlockHashString c = h ∧
        clientBlockMap h = some { BlockData := c, BlockSize := wrapInt32 (c.length : Int) }) ∧
      ((∀ x ∈ fileBlocks BlockSize fuel content, ∀ y ∈ fileBlocks BlockSize fuel content,
          GetBlockHashString x = GetBlockHashString y → x = y) →
        (hashList.toList.map fun h =>
          ((clientBlockMap h).map Block.BlockData).getD []).flatten = content ∧
        ∀ (ctx : Context) (bs : BlockStore) (bmp : GoMap Block), bs.BlockMap = some bmp →
          ∃ bs', putBlocks GetBlockHashString ctx clientBlockMap hashList.toList bs =
              some bs' ∧
            downloadBytes ctx bs' hashList.toList = content) := by
  have hrun := readBlocks_eq GetBlockHashString BlockSize hB fuel content none clientBlockMap0
    hfuel
  obtain ⟨hflat, hlen⟩ := fileBlocks_flatten BlockSize hB fuel content hfuel
  obtain ⟨hlist, hblk⟩ := readBlocks_result GetBlockHashString BlockSize hB fuel content hfuel
    clientBlockMap0 _ _ hrun
  refine ⟨_, _, hrun, hlen, hflat, hlist, ?_, hblk, ?_⟩
  · intro hempty
    rw [hempty, fileBlocks_nil BlockSize hB fuel]
    simp
  · intro hinj
    constructor
    · rw [hlist, List.map_map]
      conv_rhs => rw [← hflat]
      congr 1
      conv_rhs => rw [← List.map_id (fileBlocks BlockSize fuel content)]
      apply List.map_congr_left
      intro c hc
      have hmem : GetBlockHashString c ∈
          (fileBlocks BlockSize fuel content).map GetBlockHashString :=
        List.mem_map.mpr ⟨c, hc, rfl⟩
      rw [← hlist] at hmem
      obtain ⟨c', hc', hk, heq⟩ := hblk _ hmem
      have hcc : c' = c := hinj c' hc' c hc hk
      simp [heq, hcc]
    · intro ctx bs bmp hbs
      obtain ⟨bmp', hput, hheld⟩ := putBlocks_scanned GetBlockHashString ctx
        (fileBlocks BlockSize fuel content) _ _ bs bmp hbs hblk hinj
      refine ⟨_, hput, ?_⟩
      rw [hlist]
      rw [downloadBytes_blocks GetBlockHashString ctx _ (fileBlocks BlockSize fuel content), hflat]
      intro c hc
      have hmem : GetBlockHashString c ∈
          (fileBlocks BlockSize fuel content).map GetBlockHashString :=
        List.mem_map.mpr ⟨c, hc, rfl⟩
      rw [← hlist] at hmem
      obtain ⟨b, hb, hbc⟩ := hheld c hc hmem
      exact ⟨b, by simp [BlockStore.lookup, hb], hbc⟩

/-- Witness for C12: the bytes 1, 7, 2 in blocks of two bytes. -/
theorem scan_round_trip_witness :
    ∃ hashList clientBlockMap,
      readBlocks sampleHash 2 4 [1, 7, 2] none GoMap.empty = some (hashList, clientBlockMap) ∧
      (∀ c ∈ fileBlocks 2 4 [1, 7, 2], 1 ≤ c.length ∧ (c.length : Int) ≤ 2) ∧
      (fileBlocks 2 4 [1, 7, 2]).flatten = [1, 7, 2] ∧
      hashList.toList = (fileBlocks 2 4 [1, 7, 2]).map sampleHash ∧
      (([1, 7, 2] : List UInt8) = [] → hashList = none ∧ fileBlocks 2 4 [1, 7, 2] = []) ∧
      (∀ h ∈ hashList.toList, ∃ c ∈ fileBlocks 2 4 [1, 7, 2],
        sampleHash c = h ∧
        clientBlockMap h = some { BlockData := c, BlockSize := wrapInt32 (c.length : Int) }) ∧
      ((∀ x ∈ fileBlocks 2 4 [1, 7, 2], ∀ y ∈ fileBlocks 2 4 [1, 7, 2],
          sampleHash x = sampleHash y → x = y) →
        (hashList.toList.map fun h =>
          ((clientBlockMap h).map Block.BlockData).getD []).flatten = [1, 7, 2] ∧
        ∀ (ctx : Context) (bs : BlockStore) (bmp : GoMap Block), bs.BlockMap = some bmp →
          ∃ bs', putBlocks sampleHash ctx clientBlockMap hashList.toList bs = some bs' ∧
            downloadBytes ctx bs' hashList.toList = [1, 7, 2]) :=
  scan_round_trip sampleHash 2 4 [1, 7, 2] GoMap.empty (by decide) (by decide)

/-! ## Theorems: a pull with a missing block -/

/-- The bytes the download loop writes, in terms of the blocks the store
holds: the data of the held blocks, in the order of the hash list. -/
theorem downloadBytes_held (ctx : Context) (bs : BlockStore) (blockHashList : List String) :
    downloadBytes ctx bs blockHashList =
      ((blockHashList.filterMap bs.lookup).map Block.BlockData).flatten := by
  rw [downloadBytes_eq]
  induction blockHashList with
  | nil => rfl
  | cons h t ih =>
    cases hl : bs.lookup h with
    | none => simp [List.filterMap_cons, hl, ih]
    | some b => simp [List.filterMap_cons, hl, ih]

/-- C13, as stated, fails: in `partialWorld` the block store holds nothing
under `h9`, the second hash of the remote record of `a.txt`, and the local file
holds the bytes 3, 3; the push of a candidate of version 5 is rejected, and after
the pull the local file holds the bytes 1, 7 of the one block that was
retrieved, and the line of the remote record has been written to the index. -/
theorem pull_with_missing_block_overwrites_sample :
    partialWorld.blockStore.lookup "h9" = none ∧
    partialWorld.files "a.txt" = some [3, 3] ∧
    (reconcileFile sampleHash liveContext
        (GoMap.empty.set "a.txt"
          { Filename := "a.txt", Version := 5, BlockHashList := some ["h-other"] })
        secondBlockMap (GoMap.empty.set "a.txt" partialRecord)
        (GoMap.empty.set "a.txt" partialRecord) partialWorld "a.txt").map
      (fun w => (w.files "a.txt", w.indexLines)) =
      some (some [1, 7], [indexLine "a.txt" 1 (some ["h1", "h9"])]) := by
  refine ⟨rfl, rfl, ?_⟩
  decide

theorem filterMap_length_lt_of_missing (bs : BlockStore) (hashes : List String)
    (hmiss : ∃ h ∈ hashes, bs.lookup h = none) :
    (hashes.filterMap bs.lookup).length < hashes.length := by
  induction hashes with
  | nil =>
    obtain ⟨h, hh, _⟩ := hmiss
    simp at hh
  | cons a t ih =>
    obtain ⟨h, hh, hnone⟩ := hmiss
    cases hl : bs.lookup a with
    | none =>
      have := List.length_filterMap_le bs.lookup t
      simp only [List.filterMap_cons, hl, List.length_cons]
      omega
    | some b =>
      rcases List.mem_cons.mp hh with e | e
      · rw [e, hl] at hnone
        exact Option.noConfusion hnone
      · have := ih ⟨h, e, hnone⟩
        simp only [List.filterMap_cons, hl, List.length_cons]
        omega

/-- C13, amended. When `ClientSync` pulls a record that is not a tombstone and
the block store holds no block under some hash of the record's list, the pull
goes on: the local file is replaced by the concatenation, in hash-list order,
of the data of the blocks that are held, which are fewer than the hashes of the
list, and the line of the remote record is written to the index. This is what
the body of the final loop does for a name only in the remote snapshot, and
what it does, on the block store left by the upload, after a rejected push. -/
theorem pull_writes_retrieved_blocks (ctx : Context) (w : World) (fname : String)
    (fServer : FileMetaData) (hnt : fServer.BlockHashList.toList ≠ ["0"])
    (hmiss : ∃ h ∈ fServer.BlockHashList.toList, w.blockStore.lookup h = none) :
    (pullFile ctx w fname fServer).files fname =
      some (((fServer.BlockHashList.toList.filterMap w.blockStore.lookup).map
        Block.BlockData).flatten) ∧
    (fServer.BlockHashList.toList.filterMap w.blockStore.lookup).length <
      fServer.BlockHashList.toList.length ∧
    (pullFile ctx w fname fServer).indexLines =
      w.indexLines ++ [indexLine fname fServer.Version fServer.BlockHashList] ∧
    (∀ (GetBlockHashString : List UInt8 → String) (clientMetaMap : GoMap FileMetaData)
      (clientBlockMap : GoMap Block) (localIndexFileMetaMap remoteFileInfoMap :
        GoMap FileMetaData),
      clientMetaMap fname = none → localIndexFileMetaMap fname = none →
      remoteFileInfoMap fname = some fServer →
      reconcileFile GetBlockHashString ctx clientMetaMap clientBlockMap
        localIndexFileMetaMap remoteFileInfoMap w fname = some (pullFile ctx w fname fServer)) ∧
    (∀ (GetBlockHashString : List UInt8 → String) (clientMetaMap : GoMap FileMetaData)
      (clientBlockMap : GoMap Block) (localIndexFileMetaMap remoteFileInfoMap :
        GoMap FileMetaData) (w0 : World) (cand : FileMetaData) (r : UpdateFileReturn)
      (bmp' : GoMap Block),
      pushCandidate clientMetaMap localIndexFileMetaMap fname = some cand →
      (match clientMetaMap fname with
        | some _ => putBlocks GetBlockHashString ctx clientBlockMap
            cand.BlockHashList.toList w0.blockStore
        | none => some w0.blockStore) = some { BlockMap := some bmp' } →
      w0.metaStore.UpdateFile ctx cand = some r → r.err ≠ none →
      remoteFileInfoMap fname = some fServer →
      w = { w0 with blockStore := { BlockMap := some bmp' },
                    updateFileCalls := w0.updateFileCalls ++ [cand] } →
      reconcileFile GetBlockHashString ctx clientMetaMap clientBlockMap
        localIndexFileMetaMap remoteFileInfoMap w0 fname =
        some (pullFile ctx w fname fServer)) := by
  refine ⟨?_, filterMap_length_lt_of_missing _ _ hmiss, rfl, ?_, ?_⟩
  · have ht : ¬ isTombstone fServer.BlockHashList = true :=
      fun h => hnt ((isTombstone_iff _).mp h)
    simp only [pullFile, ht]
    simp [GoMap.set, downloadBytes_held]
  · intro GetBlockHashString clientMetaMap clientBlockMap localIndexFileMetaMap
      remoteFileInfoMap hdir hloc hrem
    simp [reconcileFile, pushCandidate, hdir, hloc, hrem]
  · intro GetBlockHashString clientMetaMap clientBlockMap localIndexFileMetaMap
      remoteFileInfoMap w0 cand r bmp' hc hup hr herr hs hw
    rw [hw]
    exact reconcileFile_rejected GetBlockHashString ctx clientMetaMap clientBlockMap
      localIndexFileMetaMap remoteFileInfoMap w0 fname cand fServer r bmp' hc hup hr herr hs

/-- Witness for the amended C13: the pull of `partialRecord` in `partialWorld`. -/
theorem pull_writes_retrieved_blocks_witness :
    (pullFile liveContext partialWorld "a.txt" partialRecord).files "a.txt" =
      some (((partialRecord.BlockHashList.toList.filterMap partialWorld.blockStore.lookup).map
        Block.BlockData).flatten) ∧
    (partialRecord.BlockHashList.toList.filterMap partialWorld.blockStore.lookup).length <
      partialRecord.BlockHashList.toList.length ∧
    (pullFile liveContext partialWorld "a.txt" partialRecord).indexLines =
      partialWorld.indexLines ++
        [indexLine "a.txt" partialRecord.Version partialRecord.BlockHashList] :=
  have h := pull_writes_retrieved_blocks liveContext partialWorld "a.txt" partialRecord
    (by decide) ⟨"h9", by decide, rfl⟩
  ⟨h.1, h.2.1, h.2.2.1⟩

/-! ## Theorems: a whole run never meets a conflict without a remote record -/

/-- The candidate pushed for a name carries that name, when the scan map holds
every candidate under its own name. -/
theorem pushCandidate_filename (clientMetaMap localIndexFileMetaMap : GoMap FileMetaData)
    (fname : String) (cand : FileMetaData)
    (hname : ∀ c, clientMetaMap fname = some c → c.Filename = fname)
    (hc : pushCandidate clientMetaMap localIndexFileMetaMap fname = some cand) :
    cand.Filename = fname := by
  unfold pushCandidate at hc
  cases hcm : clientMetaMap fname with
  | some c =>
    rw [hcm] at hc
    simp only [Option.some.injEq] at hc
    rw [← hc]
    exact hname c hcm
  | none =>
    rw [hcm] at hc
    cases hli : localIndexFileMetaMap fname with
    | some l =>
      rw [hli] at hc
      simp only [Option.some.injEq] at hc
      rw [← hc]
    | none =>
      rw [hli] at hc
      simp at hc

/-- One turn of the final loop, on stores with non-nil maps and a snapshot that
has a record for the name whenever the store has one: the body returns, both
stores keep non-nil maps, and the metadata store changes at most under the name. -/
theorem reconcileFile_returns (GetBlockHashString : List UInt8 → String) (ctx : Context)
    (clientMetaMap : GoMap FileMetaData) (clientBlockMap : GoMap Block)
    (localIndexFileMetaMap remoteFileInfoMap : GoMap FileMetaData)
    (w : World) (fname : String) (mp : GoMap FileMetaData) (bmp : GoMap Block)
    (hms : w.metaStore.FileMetaMap = some mp) (hbs : w.blockStore.BlockMap = some bmp)
    (hname : ∀ c, clientMetaMap fname = some c → c.Filename = fname)
    (hsnap : mp fname ≠ none → remoteFileInfoMap fname ≠ none) :
    ∃ w' mp' bmp', reconcileFile GetBlockHashString ctx clientMetaMap clientBlockMap
        localIndexFileMetaMap remoteFileInfoMap w fname = some w' ∧
      w'.metaStore.FileMetaMap = some mp' ∧ w'.blockStore.BlockMap = some bmp' ∧
      ∀ k, k ≠ fname → mp' k = mp k := by
  cases hc : pushCandidate clientMetaMap localIndexFileMetaMap fname with
  | none =>
    cases hrem : remoteFileInfoMap fname with
    | none =>
      refine ⟨w, mp, bmp, ?_, hms, hbs, fun k _ => rfl⟩
      simp [reconcileFile, hc, hrem]
    | some fServer =>
      refine ⟨pullFile ctx w fname fServer, mp, bmp, ?_, hms, hbs, fun k _ => rfl⟩
      simp [reconcileFile, hc, hrem]
  | some cand =>
    have hfn := pushCandidate_filename clientMetaMap localIndexFileMetaMap fname cand hname hc
    obtain ⟨bmp', hup⟩ := upload_returns GetBlockHashString ctx clientMetaMap clientBlockMap
      w fname cand bmp hbs
    obtain ⟨r, hr, hcase⟩ := UpdateFile_returns w.metaStore mp ctx cand hms
    rw [reconcileFile_push GetBlockHashString ctx clientMetaMap clientBlockMap
      localIndexFileMetaMap remoteFileInfoMap w fname cand _ r hc hup hr]
    rcases hcase with ⟨herr, hstore⟩ | ⟨herr, hstore, hpres⟩
    · rw [herr]
      refine ⟨_, mp.set cand.Filename cand, bmp', rfl, hstore, rfl, ?_⟩
      intro k hk
      rw [hfn]
      simp [GoMap.set, hk]
    · rw [herr]
      rw [hfn] at hpres
      rcases Option.eq_none_or_eq_some (remoteFileInfoMap fname) with hnone | ⟨fServer, hsome⟩
      · exact absurd hnone (hsnap hpres)
      · simp only [hsome]
        refine ⟨_, mp, bmp', rfl, ?_, rfl, fun k _ => rfl⟩
        show r.store.FileMetaMap = some mp
        rw [hstore]
        exact hms

/-- The final loop over a list of distinct names returns, both stores keep
non-nil maps, and the metadata store changes at most under the names of the list. -/
theorem reconcileAll_returns (GetBlockHashString : List UInt8 → String) (ctx : Context)
    (clientMetaMap : GoMap FileMetaData) (clientBlockMap : GoMap Block)
    (localIndexFileMetaMap remoteFileInfoMap : GoMap FileMetaData)
    (hname : ∀ k c, clientMetaMap k = some c → c.Filename = k)
    (names : List String) (hnodup : names.Nodup)
    (w : World) (mp : GoMap FileMetaData) (bmp : GoMap Block)
    (hms : w.metaStore.FileMetaMap = some mp) (hbs : w.blockStore.BlockMap = some bmp)
    (hsnap : ∀ k ∈ names, mp k ≠ none → remoteFileInfoMap k ≠ none) :
    ∃ w' mp' bmp', reconcileAll GetBlockHashString ctx clientMetaMap clientBlockMap
        localIndexFileMetaMap remoteFileInfoMap names w = some w' ∧
      w'.metaStore.FileMetaMap = some mp' ∧ w'.blockStore.BlockMap = some bmp' ∧
      ∀ k, k ∉ names → mp' k = mp k := by
  induction names generalizing w mp bmp with
  | nil => exact ⟨w, mp, bmp, rfl, hms, hbs, fun k _ => rfl⟩
  | cons fname rest ih =>
    obtain ⟨hnotin, hrest⟩ := List.nodup_cons.mp hnodup
    obtain ⟨w1, mp1, bmp1, hrun1, hms1, hbs1, hoff1⟩ := reconcileFile_returns
      GetBlockHashString ctx clientMetaMap clientBlockMap localIndexFileMetaMap
      remoteFileInfoMap w fname mp bmp hms hbs (hname fname)
      (hsnap fname (List.mem_cons_self _ _))
    have hsnap1 : ∀ k ∈ rest, mp1 k ≠ none → remoteFileInfoMap k ≠ none := by
      intro k hk hne
      have hkf : k ≠ fname := fun e => hnotin (e ▸ hk)
      rw [hoff1 k hkf] at hne
      exact hsnap k (List.mem_cons_of_mem _ hk) hne
    obtain ⟨w', mp', bmp', hrun, hms', hbs', hoff⟩ := ih hrest w1 mp1 bmp1 hms1 hbs1 hsnap1
    refine ⟨w', mp', bmp', ?_, hms', hbs', ?_⟩
    · simp only [reconcileAll, hrun1]
      exact hrun
    · intro k hk
      have hkf : k ≠ fname := fun e => hk (e ▸ List.mem_cons_self _ _)
      have hkr : k ∉ rest := fun e => hk (List.mem_cons_of_mem _ e)
      rw [hoff k hkr, hoff1 k hkf]

theorem addName_nodup (names : List String) (filename : String) (h : names.Nodup) :
    (addName names filename).Nodup := by
  unfold addName
  by_cases hmem : filename ∈ names
  · rw [if_pos hmem]
    exact h
  · rw [if_neg hmem]
    refine List.nodup_append.mpr ⟨h, List.nodup_singleton _, ?_⟩
    intro a ha hb
    rw [List.mem_singleton] at hb
    exact hmem (hb ▸ ha)

theorem foldl_addName_nodup (keys names : List String) (h : names.Nodup) :
    (keys.foldl addName names).Nodup := by
  induction keys generalizing names with
  | nil => exact h
  | cons k rest ih => exact ih _ (addName_nodup names k h)

/-- One turn of the scan loop with a positive block size and enough
iterations: it returns, the scan map still holds every candidate under its own
name, and the names are still distinct. -/
theorem scanFile_returns (GetBlockHashString : List UInt8 → String) (client : RPCClient)
    (fuel : Nat) (localIndexFileMetaMap : GoMap FileMetaData) (files : GoMap (List UInt8))
    (st : ScanState) (filename : String) (hB : 0 < client.BlockSize)
    (hfuel : ((files filename).getD []).length < fuel)
    (hname : ∀ k c, st.clientMetaMap k = some c → c.Filename = k)
    (hnodup : st.allFileMetaMap.Nodup) :
    ∃ st', scanFile GetBlockHashString client fuel localIndexFileMetaMap files st filename =
        some st' ∧
      (∀ k c, st'.clientMetaMap k = some c → c.Filename = k) ∧ st'.allFileMetaMap.Nodup := by
  unfold scanFile
  by_cases hidx : filename = "index.txt"
  · rw [if_pos hidx]
    exact ⟨st, rfl, hname, hnodup⟩
  · rw [if_neg hidx]
    rw [readBlocks_eq GetBlockHashString client.BlockSize hB fuel _ none st.clientBlockMap hfuel]
    refine ⟨_, rfl, ?_, addName_nodup _ _ hnodup⟩
    intro k c hkc
    by_cases hk : k = filename
    · simp only [GoMap.set, hk, if_true, Option.some.injEq] at hkc
      rw [← hkc, hk]
      rfl
    · simp only [GoMap.set, hk, if_false] at hkc
      exact hname k c hkc

/-- The scan loop over a directory listing with a positive block size and
enough iterations for every listed file: it returns, the scan map holds every
candidate under its own name, and the names are distinct. -/
theorem scanDir_returns (GetBlockHashString : List UInt8 → String) (client : RPCClient)
    (fuel : Nat) (localIndexFileMetaMap : GoMap FileMetaData) (files : GoMap (List UInt8))
    (list : List String) (st : ScanState) (hB : 0 < client.BlockSize)
    (hfuel : ∀ filename ∈ list, ((files filename).getD []).length < fuel)
    (hname : ∀ k c, st.clientMetaMap k = some c → c.Filename = k)
    (hnodup : st.allFileMetaMap.Nodup) :
    ∃ st', scanDir GetBlockHashString client fuel localIndexFileMetaMap files list st =
        some st' ∧
      (∀ k c, st'.clientMetaMap k = some c → c.Filename = k) ∧ st'.allFileMetaMap.Nodup := by
  induction list generalizing st with
  | nil => exact ⟨st, rfl, hname, hnodup⟩
  | cons filename rest ih =>
    obtain ⟨st1, hrun1, hname1, hnodup1⟩ := scanFile_returns GetBlockHashString client fuel
      localIndexFileMetaMap files st filename hB (hfuel filename (List.mem_cons_self _ _))
      hname hnodup
    obtain ⟨st', hrun, hname', hnodup'⟩ := ih st1
      (fun f hf => hfuel f (List.mem_cons_of_mem _ hf)) hname1 hnodup1
    refine ⟨st', ?_, hname', hnodup'⟩
    simp only [scanDir, hrun1]
    exact hrun

theorem RPCClient_GetFileInfoMap_eq (ctx : Context) (m : MetaStore) (mp : GoMap FileMetaData)
    (hm : m.FileMetaMap = some mp) : RPCClient.GetFileInfoMap ctx m = mp := by
  simp [RPCClient.GetFileInfoMap, MetaStore.GetFileInfoMap, hm]

/-- C15. A run of `ClientSync` by a single client, with both stores holding
non-nil maps, a positive block size, enough iterations for every listed file
and distinct names in the set of names loaded with the local index: the scan
returns and the whole run returns, so that no turn of the final loop reads
`fServer.BlockHashList` of an absent entry; and at every turn of the final
loop, in the state the turns before it left, whenever `UpdateFile` returns an
error for the candidate of the turn's name, the remote snapshot fetched at the
start of the run has a record for that name. -/
theorem ClientSync_conflict_has_remote_record (GetBlockHashString : List UInt8 → String)
    (ctx : Context) (client : RPCClient) (fuel : Nat) (list : List String)
    (localIndexFileMetaMap : GoMap FileMetaData) (allFileMetaMap remoteKeys : List String)
    (w : World) (mp : GoMap FileMetaData) (bmp : GoMap Block)
    (hms : w.metaStore.FileMetaMap = some mp) (hbs : w.blockStore.BlockMap = some bmp)
    (hB : 0 < client.BlockSize)
    (hfuel : ∀ filename ∈ list, ((w.files filename).getD []).length < fuel)
    (hnodup : allFileMetaMap.Nodup) :
    ∃ st w',
      scanDir GetBlockHashString client fuel localIndexFileMetaMap w.files list
        { clientMetaMap := GoMap.empty, clientBlockMap := GoMap.empty,
          allFileMetaMap := allFileMetaMap } = some st ∧
      ClientSync GetBlockHashString ctx client fuel list localIndexFileMetaMap allFileMetaMap
        remoteKeys w = some w' ∧
      ∀ pre fname post, remoteKeys.foldl addName st.allFileMetaMap = pre ++ fname :: post →
        ∃ w1, reconcileAll GetBlockHashString ctx st.clientMetaMap st.clientBlockMap
            localIndexFileMetaMap (RPCClient.GetFileInfoMap ctx w.metaStore) pre w = some w1 ∧
          ∀ cand r, pushCandidate st.clientMetaMap localIndexFileMetaMap fname = some cand →
            w1.metaStore.UpdateFile ctx cand = some r → r.err ≠ none →
            RPCClient.GetFileInfoMap ctx w.metaStore fname ≠ none := by
  obtain ⟨st, hscan, hname, hnd⟩ := scanDir_returns GetBlockHashString client fuel
    localIndexFileMetaMap w.files list
    { clientMetaMap := GoMap.empty, clientBlockMap := GoMap.empty,
      allFileMetaMap := allFileMetaMap } hB hfuel
    (fun k c hkc => by simp [GoMap.empty] at hkc) hnodup
  have hremote := RPCClient_GetFileInfoMap_eq ctx w.metaStore mp hms
  have hnames := foldl_addName_nodup remoteKeys st.allFileMetaMap hnd
  obtain ⟨w', _, _, hrun, _, _, _⟩ := reconcileAll_returns GetBlockHashString ctx
    st.clientMetaMap st.clientBlockMap localIndexFileMetaMap
    (RPCClient.GetFileInfoMap ctx w.metaStore) hname
    (remoteKeys.foldl addName st.allFileMetaMap) hnames w mp bmp hms hbs
    (fun k _ hk => by rw [hremote]; exact hk)
  refine ⟨st, w', hscan, ?_, ?_⟩
  · simp only [ClientSync, hscan]
    exact hrun
  · intro pre fname post hsplit
    rw [hsplit] at hnames
    obtain ⟨hpre, _, hdisj⟩ := List.nodup_append.mp hnames
    have hnotin : fname ∉ pre := fun h => hdisj h (List.mem_cons_self _ _)
    obtain ⟨w1, mp1, _, hrun1, hms1, _, hoff1⟩ := reconcileAll_returns GetBlockHashString ctx
      st.clientMetaMap st.clientBlockMap localIndexFileMetaMap
      (RPCClient.GetFileInfoMap ctx w.metaStore) hname pre hpre w mp bmp hms hbs
      (fun k _ hk => by rw [hremote]; exact hk)
    refine ⟨w1, hrun1, ?_⟩
    intro cand r hc hr herr
    have hfn := pushCandidate_filename st.clientMetaMap localIndexFileMetaMap fname cand
      (hname fname) hc
    obtain ⟨r', hr', hcase⟩ := UpdateFile_returns w1.metaStore mp1 ctx cand hms1
    rw [hr] at hr'
    simp only [Option.some.injEq] at hr'
    subst hr'
    rcases hcase with ⟨hnone, _⟩ | ⟨_, _, hpres⟩
    · exact absurd hnone herr
    · rw [hfn, hoff1 fname hnotin] at hpres
      rw [hremote]
      exact hpres

/-- Witness for C15: a run on `conflictWorld` with `a.txt` in the directory,
in the local index and in the remote snapshot. -/
theorem ClientSync_conflict_has_remote_record_witness :
    ∃ st w',
      scanDir sampleHash sampleClient 4 baseIndex conflictWorld.files ["a.txt", "index.txt"]
        { clientMetaMap := GoMap.empty, clientBlockMap := GoMap.empty,
          allFileMetaMap := ["a.txt"] } = some st ∧
      ClientSync sampleHash liveContext sampleClient 4 ["a.txt", "index.txt"] baseIndex
        ["a.txt"] ["a.txt"] conflictWorld = some w' ∧
      ∀ pre fname post, ["a.txt"].foldl addName st.allFileMetaMap = pre ++ fname :: post →
        ∃ w1, reconcileAll sampleHash liveContext st.clientMetaMap st.clientBlockMap
            baseIndex (RPCClient.GetFileInfoMap liveContext conflictWorld.metaStore) pre
            conflictWorld = some w1 ∧
          ∀ cand r, pushCandidate st.clientMetaMap baseIndex fname = some cand →
            w1.metaStore.UpdateFile liveContext cand = some r → r.err ≠ none →
            RPCClient.GetFileInfoMap liveContext conflictWorld.metaStore fname ≠ none :=
  ClientSync_conflict_has_remote_record sampleHash liveContext sampleClient 4
    ["a.txt", "index.txt"] baseIndex ["a.txt"] ["a.txt"] conflictWorld
    (GoMap.empty.set "a.txt" sampleRecord) (GoMap.empty.set "h1" sampleBlock) rfl rfl
    (by decide) (by decide) (by decide)

/-! ## Theorems: two runs in a row -/

/-- The names of the set after an insertion. -/
theorem mem_addName (names : List String) (filename k : String) :
    k ∈ addName names filename ↔ k ∈ names ∨ k = filename := by
  unfold addName
  by_cases hmem : filename ∈ names
  · rw [if_pos hmem]
    constructor
    · exact Or.inl
    · rintro (h | h)
      · exact h
      · exact h ▸ hmem
  · rw [if_neg hmem]
    simp

/-- The names of the set after the insertion of a list of keys. -/
theorem mem_foldl_addName (keys names : List String) (k : String) :
    k ∈ keys.foldl addName names ↔ k ∈ names ∨ k ∈ keys := by
  induction keys generalizing names with
  | nil => simp
  | cons a rest ih =>
    rw [List.foldl_cons, ih, mem_addName, List.mem_cons]
    tauto

/-- The scan loop over a directory listing with a positive block size and
enough iterations for every listed file: it returns; the set of names gains
the listed names other than `index.txt`; the scan map is untouched at every
other name and holds, at every listed name other than `index.txt`, the
candidate built from the hash list the block-reading loop gives on the file. -/
theorem scanDir_scan (GetBlockHashString : List UInt8 → String) (client : RPCClient)
    (fuel : Nat) (localIndexFileMetaMap : GoMap FileMetaData) (files : GoMap (List UInt8))
    (hB : 0 < client.BlockSize) (list : List String)
    (hfuel : ∀ filename ∈ list, ((files filename).getD []).length < fuel) (st : ScanState) :
    ∃ st', scanDir GetBlockHashString client fuel localIndexFileMetaMap files list st =
        some st' ∧
      st'.allFileMetaMap =
        (list.filter fun k => k ≠ "index.txt").foldl addName st.allFileMetaMap ∧
      (∀ k, k ∉ list ∨ k = "index.txt" → st'.clientMetaMap k = st.clientMetaMap k) ∧
      ∀ k ∈ list, k ≠ "index.txt" → ∃ hl bm,
        readBlocks GetBlockHashString client.BlockSize fuel ((files k).getD []) none
          GoMap.empty = some (hl, bm) ∧
        st'.clientMetaMap k = some (scanCandidate localIndexFileMetaMap k hl) := by
  induction list generalizing st with
  | nil => exact ⟨st, rfl, rfl, fun _ _ => rfl, fun k hk => absurd hk (List.not_mem_nil k)⟩
  | cons a rest ih =>
    have hfuel' : ∀ filename ∈ rest, ((files filename).getD []).length < fuel :=
      fun f hf => hfuel f (List.mem_cons_of_mem _ hf)
    by_cases ha : a = "index.txt"
    · obtain ⟨st', hrun, hall, hout, hin⟩ := ih hfuel' st
      refine ⟨st', ?_, ?_, ?_, ?_⟩
      · simp only [scanDir, scanFile, ha, if_true]
        exact hrun
      · rw [hall]
        simp [List.filter_cons, ha]
      · intro k hk
        apply hout
        rcases hk with hk | hk
        · exact Or.inl fun h => hk (List.mem_cons_of_mem _ h)
        · exact Or.inr hk
      · intro k hk hne
        rcases List.mem_cons.mp hk with hk | hk
        · exact absurd (hk.trans ha) hne
        · exact hin k hk hne
    · have hr := readBlocks_eq GetBlockHashString client.BlockSize hB fuel
        ((files a).getD []) none st.clientBlockMap (hfuel a (List.mem_cons_self _ _))
      have hr0 := readBlocks_eq GetBlockHashString client.BlockSize hB fuel
        ((files a).getD []) none GoMap.empty (hfuel a (List.mem_cons_self _ _))
      obtain ⟨st', hrun, hall, hout, hin⟩ := ih hfuel'
        { clientMetaMap := st.clientMetaMap.set a (scanCandidate localIndexFileMetaMap a
            (if fileBlocks client.BlockSize fuel ((files a).getD []) = [] then none
             else some (GoSlice.toList (none : GoSlice String) ++
               (fileBlocks client.BlockSize fuel ((files a).getD [])).map GetBlockHashString)))
          clientBlockMap := (fileBlocks client.BlockSize fuel ((files a).getD [])).foldl
            (fun m c => m.set (GetBlockHashString c)
              { BlockData := c, BlockSize := wrapInt32 (c.length : Int) }) st.clientBlockMap
          allFileMetaMap := addName st.allFileMetaMap a }
      refine ⟨st', ?_, ?_, ?_, ?_⟩
      · simp only [scanDir, scanFile, ha, if_false, hr]
        exact hrun
      · rw [hall]
        simp [List.filter_cons, ha]
      · intro k hk
        have hka : k ≠ a := by
          rcases hk with hk | hk
          · exact fun h => hk (h ▸ List.mem_cons_self _ _)
          · exact fun h => ha (h ▸ hk)
        rw [hout k (by
          rcases hk with hk | hk
          · exact Or.inl fun h => hk (List.mem_cons_of_mem _ h)
          · exact Or.inr hk)]
        simp [GoMap.set, hka]
      · intro k hk hne
        by_cases hkr : k ∈ rest
        · exact hin k hkr hne
        · have hka : k = a := by
            rcases List.mem_cons.mp hk with h | h
            · exact h
            · exact absurd h hkr
          subst hka
          refine ⟨_, _, hr0, ?_⟩
          rw [hout k (Or.inl hkr)]
          simp [GoMap.set]

/-- The final loop over a list of names in two parts. -/
theorem reconcileAll_append (GetBlockHashString : List UInt8 → String) (ctx : Context)
    (clientMetaMap : GoMap FileMetaData) (clientBlockMap : GoMap Block)
    (localIndexFileMetaMap remoteFileInfoMap : GoMap FileMetaData)
    (xs ys : List String) (w : World) :
    reconcileAll GetBlockHashString ctx clientMetaMap clientBlockMap localIndexFileMetaMap
        remoteFileInfoMap (xs ++ ys) w =
      (reconcileAll GetBlockHashString ctx clientMetaMap clientBlockMap localIndexFileMetaMap
        remoteFileInfoMap xs w).bind
        (reconcileAll GetBlockHashString ctx clientMetaMap clientBlockMap localIndexFileMetaMap
          remoteFileInfoMap ys) := by
  induction xs generalizing w with
  | nil => rfl
  | cons a rest ih =>
    simp only [List.cons_append, reconcileAll]
    cases reconcileFile GetBlockHashString ctx clientMetaMap clientBlockMap
        localIndexFileMetaMap remoteFileInfoMap w a with
    | none => rfl
    | some w1 => exact ih w1

/-- The body of the final loop only appends to the index. -/
theorem reconcileFile_indexLines (GetBlockHashString : List UInt8 → String) (ctx : Context)
    (clientMetaMap : GoMap FileMetaData) (clientBlockMap : GoMap Block)
    (localIndexFileMetaMap remoteFileInfoMap : GoMap FileMetaData)
    (w w' : World) (fname : String)
    (h : reconcileFile GetBlockHashString ctx clientMetaMap clientBlockMap
      localIndexFileMetaMap remoteFileInfoMap w fname = some w') :
    ∃ l, w'.indexLines = w.indexLines ++ l := by
  unfold reconcileFile at h
  split at h
  · simp only at h
    split at h
    · cases h
    · split at h
      · cases h
      · split at h
        · split at h
          · cases h
          · cases h
            exact ⟨_, rfl⟩
        · cases h
          exact ⟨_, rfl⟩
  · split at h
    · cases h
      exact ⟨_, rfl⟩
    · cases h
      exact ⟨[], (List.append_nil _).symm⟩

/-- The final loop only appends to the index. -/
theorem reconcileAll_indexLines (GetBlockHashString : List UInt8 → String) (ctx : Context)
    (clientMetaMap : GoMap FileMetaData) (clientBlockMap : GoMap Block)
    (localIndexFileMetaMap remoteFileInfoMap : GoMap FileMetaData)
    (names : List String) (w w' : World)
    (h : reconcileAll GetBlockHashString ctx clientMetaMap clientBlockMap
      localIndexFileMetaMap remoteFileInfoMap names w = some w') :
    ∃ l, w'.indexLines = w.indexLines ++ l := by
  induction names generalizing w with
  | nil =>
    cases h
    exact ⟨[], (List.append_nil _).symm⟩
  | cons a rest ih =>
    simp only [reconcileAll] at h
    cases h1 : reconcileFile GetBlockHashString ctx clientMetaMap clientBlockMap
        localIndexFileMetaMap remoteFileInfoMap w a with
    | none => rw [h1] at h; cases h
    | some w1 =>
      rw [h1] at h
      obtain ⟨l1, hl1⟩ := reconcileFile_indexLines GetBlockHashString ctx clientMetaMap
        clientBlockMap localIndexFileMetaMap remoteFileInfoMap w w1 a h1
      obtain ⟨l2, hl2⟩ := ih w1 h
      exact ⟨l1 ++ l2, by rw [hl2, hl1, List.append_assoc]⟩

/-- The push of a tombstone for a name that is in the local index and not in
the scan map, when the store holds the name at the local index version: the
push is accepted, the store holds the tombstone at the local index version
plus 1, whatever the hash list of the local index record is, and the line of
that tombstone is written to the index. -/
theorem reconcileFile_tombstone (GetBlockHashString : List UInt8 → String)
    (ctx : Context) (clientMetaMap : GoMap FileMetaData) (clientBlockMap : GoMap Block)
    (localIndexFileMetaMap remoteFileInfoMap : GoMap FileMetaData)
    (w : World) (fname : String) (mp : GoMap FileMetaData) (fLocalIndex cur : FileMetaData)
    (hms : w.metaStore.FileMetaMap = some mp) (hdir : clientMetaMap fname = none)
    (hloc : localIndexFileMetaMap fname = some fLocalIndex) (hcur : mp fname = some cur)
    (hver : cur.Version = fLocalIndex.Version) :
    ∃ w', reconcileFile GetBlockHashString ctx clientMetaMap clientBlockMap
        localIndexFileMetaMap remoteFileInfoMap w fname = some w' ∧
      w'.metaStore.FileMetaMap = some (mp.set fname
        { Filename := fname, Version := int32Add fLocalIndex.Version 1,
          BlockHashList := some ["0"] }) ∧
      w'.blockStore = w.blockStore ∧
      w'.indexLines = w.indexLines ++
        [indexLine fname (int32Add fLocalIndex.Version 1) (some ["0"])] := by
  have hc : pushCandidate clientMetaMap localIndexFileMetaMap fname =
      some { Filename := fname, Version := int32Add fLocalIndex.Version 1,
             BlockHashList := some ["0"] } := by
    simp [pushCandidate, hdir, hloc]
  have hacc := UpdateFile_next w.metaStore mp ctx
    { Filename := fname, Version := int32Add fLocalIndex.Version 1,
      BlockHashList := some ["0"] } cur hms hcur
    (by rw [hver]; exact int32Sub_add_one fLocalIndex.Version)
  have hup : (match clientMetaMap fname with
      | some _ => putBlocks GetBlockHashString ctx clientBlockMap
          ({ Filename := fname, Version := int32Add fLocalIndex.Version 1,
             BlockHashList := some ["0"] } : FileMetaData).BlockHashList.toList w.blockStore
      | none => some w.blockStore) = some w.blockStore := by
    rw [hdir]
  rw [reconcileFile_push GetBlockHashString ctx clientMetaMap clientBlockMap
    localIndexFileMetaMap remoteFileInfoMap w fname _ _ _ hc hup hacc]
  exact ⟨_, rfl, rfl, rfl, rfl⟩

/-- The final loop over distinct names, one of which is in the local index and
not in the scan map while the store holds it at the local index version: the
loop returns, the store ends with the tombstone of the name at the local index
version plus 1, and the line of that tombstone is in the index. -/
theorem reconcileAll_tombstone (GetBlockHashString : List UInt8 → String) (ctx : Context)
    (clientMetaMap : GoMap FileMetaData) (clientBlockMap : GoMap Block)
    (localIndexFileMetaMap remoteFileInfoMap : GoMap FileMetaData)
    (hname : ∀ k c, clientMetaMap k = some c → c.Filename = k)
    (names : List String) (hnodup : names.Nodup)
    (w : World) (mp : GoMap FileMetaData) (bmp : GoMap Block)
    (hms : w.metaStore.FileMetaMap = some mp) (hbs : w.blockStore.BlockMap = some bmp)
    (hsnap : ∀ k ∈ names, mp k ≠ none → remoteFileInfoMap k ≠ none)
    (d : String) (fLocalIndex cur : FileMetaData) (hd : d ∈ names)
    (hdir : clientMetaMap d = none) (hloc : localIndexFileMetaMap d = some fLocalIndex)
    (hcur : mp d = some cur) (hver : cur.Version = fLocalIndex.Version) :
    ∃ w', reconcileAll GetBlockHashString ctx clientMetaMap clientBlockMap
        localIndexFileMetaMap remoteFileInfoMap names w = some w' ∧
      w'.metaStore.lookup d =
        some { Filename := d, Version := int32Add fLocalIndex.Version 1,
               BlockHashList := some ["0"] } ∧
      indexLine d (int32Add fLocalIndex.Version 1) (some ["0"]) ∈ w'.indexLines := by
  obtain ⟨pre, post, rfl⟩ := List.append_of_mem hd
  have hnd := List.nodup_append.mp hnodup
  have hndpost := List.nodup_cons.mp hnd.2.1
  have hdpre : d ∉ pre := fun h => hnd.2.2 h (List.mem_cons_self _ _)
  obtain ⟨w1, mp1, bmp1, hrun1, hms1, hbs1, hfr1⟩ := reconcileAll_returns GetBlockHashString
    ctx clientMetaMap clientBlockMap localIndexFileMetaMap remoteFileInfoMap hname pre hnd.1
    w mp bmp hms hbs (fun k hk => hsnap k (List.mem_append_left _ hk))
  obtain ⟨w2, hrun2, hms2, hbs2, hidx2⟩ := reconcileFile_tombstone GetBlockHashString ctx
    clientMetaMap clientBlockMap localIndexFileMetaMap remoteFileInfoMap w1 d mp1
    fLocalIndex cur hms1 hdir hloc (by rw [hfr1 d hdpre]; exact hcur) hver
  obtain ⟨w3, mp3, bmp3, hrun3, hms3, _, hfr3⟩ := reconcileAll_returns GetBlockHashString
    ctx clientMetaMap clientBlockMap localIndexFileMetaMap remoteFileInfoMap hname post
    hndpost.2 w2 _ bmp1 hms2 (by rw [hbs2]; exact hbs1)
    (fun k hk hne => by
      have hkd : k ≠ d := fun h => hndpost.1 (h ▸ hk)
      have hkpre : k ∉ pre := fun h => hnd.2.2 h (List.mem_cons_of_mem _ hk)
      apply hsnap k (List.mem_append_right _ (List.mem_cons_of_mem _ hk))
      rw [← hfr1 k hkpre]
      simpa [GoMap.set, hkd] using hne)
  obtain ⟨l3, hl3⟩ := reconcileAll_indexLines GetBlockHashString ctx clientMetaMap
    clientBlockMap localIndexFileMetaMap remoteFileInfoMap post w2 w3 hrun3
  refine ⟨w3, ?_, ?_, ?_⟩
  · rw [reconcileAll_append, hrun1]
    simp only [Option.bind, reconcileAll, hrun2]
    exact hrun3
  · rw [lookup_of_map _ mp3 hms3, hfr3 d hndpost.1]
    simp [GoMap.set]
  · rw [hl3, hidx2]
    simp

/-- A file on disk whose candidate carries the version the store holds: the
push is rejected, the metadata store is left as it is and the line of the
remote record is written to the index. -/
theorem reconcileFile_same_version (GetBlockHashString : List UInt8 → String)
    (ctx : Context) (clientMetaMap : GoMap FileMetaData) (clientBlockMap : GoMap Block)
    (localIndexFileMetaMap remoteFileInfoMap : GoMap FileMetaData)
    (w : World) (fname : String) (mp : GoMap FileMetaData) (bmp : GoMap Block)
    (cand cur : FileMetaData)
    (hms : w.metaStore.FileMetaMap = some mp) (hbs : w.blockStore.BlockMap = some bmp)
    (hdir : clientMetaMap fname = some cand) (hfn : cand.Filename = fname)
    (hcur : mp fname = some cur) (hrem : remoteFileInfoMap fname = some cur)
    (hver : cand.Version = cur.Version) :
    ∃ w', reconcileFile GetBlockHashString ctx clientMetaMap clientBlockMap
        localIndexFileMetaMap remoteFileInfoMap w fname = some w' ∧
      w'.metaStore = w.metaStore ∧ (∃ bmp', w'.blockStore.BlockMap = some bmp') ∧
      w'.indexLines = w.indexLines ++ [indexLine fname cur.Version cur.BlockHashList] := by
  have hc : pushCandidate clientMetaMap localIndexFileMetaMap fname = some cand := by
    simp [pushCandidate, hdir]
  obtain ⟨bmp', hup, _⟩ := upload_lookup GetBlockHashString ctx clientMetaMap clientBlockMap
    w.blockStore fname cand bmp hbs
    (pushCandidate_of_scan clientMetaMap localIndexFileMetaMap fname cand hc)
  have hrej := UpdateFile_reject w.metaStore mp ctx cand cur hms (by rw [hfn]; exact hcur)
    (by rw [hver, int32Sub_self]; decide)
  rw [reconcileFile_rejected GetBlockHashString ctx clientMetaMap clientBlockMap
    localIndexFileMetaMap remoteFileInfoMap w fname cand cur _ bmp' hc hup hrej (by simp) hrem]
  exact ⟨_, rfl, rfl, ⟨bmp', rfl⟩, rfl⟩

/-- The final loop when every name is in the scan map with a candidate that
carries the version the store holds: the metadata store is left as it is and
the line of the store's record is written to the index for every name. -/
theorem reconcileAll_same_version (GetBlockHashString : List UInt8 → String) (ctx : Context)
    (clientMetaMap : GoMap FileMetaData) (clientBlockMap : GoMap Block)
    (localIndexFileMetaMap remoteFileInfoMap : GoMap FileMetaData)
    (mp : GoMap FileMetaData) (names : List String)
    (hsame : ∀ k ∈ names, ∃ cand cur, clientMetaMap k = some cand ∧ cand.Filename = k ∧
      mp k = some cur ∧ remoteFileInfoMap k = some cur ∧ cand.Version = cur.Version)
    (w : World) (bmp : GoMap Block)
    (hms : w.metaStore.FileMetaMap = some mp) (hbs : w.blockStore.BlockMap = some bmp) :
    ∃ w', reconcileAll GetBlockHashString ctx clientMetaMap clientBlockMap
        localIndexFileMetaMap remoteFileInfoMap names w = some w' ∧
      w'.metaStore = w.metaStore ∧
      w'.indexLines = w.indexLines ++ names.filterMap fun k =>
        (mp k).map fun cur => indexLine k cur.Version cur.BlockHashList := by
  induction names generalizing w bmp with
  | nil => exact ⟨w, rfl, rfl, by simp⟩
  | cons a rest ih =>
    obtain ⟨cand, cur, hdir, hfn, hcur, hrem, hver⟩ := hsame a (List.mem_cons_self _ _)
    obtain ⟨w1, hrun1, hmeta1, ⟨bmp1, hbs1⟩, hidx1⟩ := reconcileFile_same_version
      GetBlockHashString ctx clientMetaMap clientBlockMap localIndexFileMetaMap
      remoteFileInfoMap w a mp bmp cand cur hms hbs hdir hfn hcur hrem hver
    obtain ⟨w', hrun, hmeta, hidx⟩ := ih (fun k hk => hsame k (List.mem_cons_of_mem _ hk))
      w1 bmp1 (by rw [hmeta1]; exact hms) hbs1
    refine ⟨w', ?_, hmeta.trans hmeta1, ?_⟩
    · simp only [reconcileAll, hrun1]
      exact hrun
    · rw [hidx, hidx1]
      simp [List.filterMap_cons, hcur]

/-- C11, as stated, fails for a tombstone: the metadata store holds the
tombstone of `d.txt` at version 5 and the client has neither the file nor an
index line. The first run of `ClientSync` pulls the tombstone: the store is
left as it is and the line `d.txt,5,0` is written to the index. A second run
with nothing changed, its local index read from that line, finds the name in
the index and not on disk and pushes a tombstone again: the version the
metadata store holds goes from 5 to 6 and a line at version 6 is written to
the index. -/
theorem second_run_bumps_tombstone :
    ∃ w1 w2,
      ClientSync sampleHash liveContext sampleClient 4 ["index.txt"]
        (LoadMetaFromMetaFile tombstoneWorld.indexLines).1
        (LoadMetaFromMetaFile tombstoneWorld.indexLines).2 ["d.txt"] tombstoneWorld = some w1 ∧
      w1.metaStore.lookup "d.txt" = some tombstoneRecord ∧
      w1.files "d.txt" = none ∧
      w1.indexLines = ["d.txt,5,0\n"] ∧
      (LoadMetaFromMetaFile w1.indexLines).1 "d.txt" = some tombstoneRecord ∧
      (LoadMetaFromMetaFile w1.indexLines).2 = ["d.txt"] ∧
      ClientSync sampleHash liveContext sampleClient 4 ["index.txt"]
        (LoadMetaFromMetaFile w1.indexLines).1
        (LoadMetaFromMetaFile w1.indexLines).2 ["d.txt"] w1 = some w2 ∧
      w2.metaStore.lookup "d.txt" =
        some { Filename := "d.txt", Version := 6, BlockHashList := some ["0"] } ∧
      w2.files "d.txt" = none ∧
      w2.indexLines = ["d.txt,5,0\n", "d.txt,6,0\n"] := by
  refine ⟨_, _, rfl, ?_, ?_, ?_, ?_, ?_, rfl, ?_, ?_, ?_⟩ <;> decide

/-- C11, amended. Take a run of `ClientSync` with a positive block size, enough
iterations for every listed file, and both stores initialised. First, if every
name of the local index and of the remote snapshot is a file of the base
directory, and every file of the base directory is in the local index with a
hash list that `IsBlockHashListModified` reports as unmodified against the
hash list the scan computes, the store holding the name at the local index
version, then the run returns, the metadata store is unchanged (no version is
bumped), and the line written to the index for every name is the name, the
version and the hash list of the store's record. Second, for every name that
is in the local index and not in the base directory, the store holding it at
the local index version (the state a run leaves for a name whose last synced
record is a tombstone), the run returns and the store ends with the tombstone
of the name at the local index version plus 1, with the line of that version
written to the index: the version is bumped by each such run. -/
theorem ClientSync_second_run (GetBlockHashString : List UInt8 → String) (ctx : Context)
    (client : RPCClient) (fuel : Nat) (list : List String)
    (localIndexFileMetaMap : GoMap FileMetaData) (allFileMetaMap remoteKeys : List String)
    (w : World) (mp : GoMap FileMetaData) (bmp : GoMap Block)
    (hB : 0 < client.BlockSize)
    (hfuel : ∀ filename ∈ list, ((w.files filename).getD []).length < fuel)
    (hms : w.metaStore.FileMetaMap = some mp) (hbs : w.blockStore.BlockMap = some bmp) :
    ((∀ k ∈ allFileMetaMap ++ remoteKeys, k ∈ list ∧ k ≠ "index.txt") →
      (∀ k ∈ list, k ≠ "index.txt" → ∃ fLoc cur hl bm,
        localIndexFileMetaMap k = some fLoc ∧ mp k = some cur ∧ cur.Version = fLoc.Version ∧
        readBlocks GetBlockHashString client.BlockSize fuel ((w.files k).getD []) none
          GoMap.empty = some (hl, bm) ∧
        IsBlockHashListModified hl fLoc.BlockHashList = false) →
      ∃ w', ClientSync GetBlockHashString ctx client fuel list localIndexFileMetaMap
          allFileMetaMap remoteKeys w = some w' ∧
        w'.metaStore = w.metaStore ∧
        w'.indexLines = w.indexLines ++
          (remoteKeys.foldl addName
            ((list.filter fun k => k ≠ "index.txt").foldl addName allFileMetaMap)).filterMap
            fun k => (mp k).map fun cur =>
              k ++ "," ++ toString cur.Version ++ "," ++
                " ".intercalate cur.BlockHashList.toList ++ "\n") ∧
    ∀ d fLoc cur, allFileMetaMap.Nodup → d ∈ allFileMetaMap → d ∉ list →
      localIndexFileMetaMap d = some fLoc → mp d = some cur → cur.Version = fLoc.Version →
      ∃ w', ClientSync GetBlockHashString ctx client fuel list localIndexFileMetaMap
          allFileMetaMap remoteKeys w = some w' ∧
        w'.metaStore.lookup d =
          some { Filename := d, Version := int32Add fLoc.Version 1,
                 BlockHashList := some ["0"] } ∧
        d ++ "," ++ toString (int32Add fLoc.Version 1) ++ "," ++ "0" ++ "\n" ∈
          w'.indexLines := by
  obtain ⟨st, hscan, hall, hout, hin⟩ := scanDir_scan GetBlockHashString client fuel
    localIndexFileMetaMap w.files hB list hfuel
    { clientMetaMap := GoMap.empty, clientBlockMap := GoMap.empty,
      allFileMetaMap := allFileMetaMap }
  have hrem := RPCClient_GetFileInfoMap_eq ctx w.metaStore mp hms
  constructor
  · intro huniv hsync
    have hsame : ∀ k ∈ remoteKeys.foldl addName st.allFileMetaMap, ∃ cand cur,
        st.clientMetaMap k = some cand ∧ cand.Filename = k ∧ mp k = some cur ∧
        RPCClient.GetFileInfoMap ctx w.metaStore k = some cur ∧ cand.Version = cur.Version := by
      intro k hk
      have hkl : k ∈ list ∧ k ≠ "index.txt" := by
        rw [mem_foldl_addName, hall, mem_foldl_addName] at hk
        rcases hk with (hk | hk) | hk
        · exact huniv k (List.mem_append_left _ hk)
        · have := List.mem_filter.mp hk
          exact ⟨this.1, by simpa using this.2⟩
        · exact huniv k (List.mem_append_right _ hk)
      obtain ⟨fLoc, cur, hl, bm, hloc, hcur, hver, hread, hmod⟩ := hsync k hkl.1 hkl.2
      obtain ⟨hl', bm', hread', hcand⟩ := hin k hkl.1 hkl.2
      rw [hread] at hread'
      cases hread'
      refine ⟨_, cur, hcand, rfl, hcur, by rw [hrem]; exact hcur, ?_⟩
      simp [scanCandidate, hloc, hmod, hver]
    obtain ⟨w', hrun, hmeta, hidx⟩ := reconcileAll_same_version GetBlockHashString ctx
      st.clientMetaMap st.clientBlockMap localIndexFileMetaMap
      (RPCClient.GetFileInfoMap ctx w.metaStore) mp _ hsame w bmp hms hbs
    refine ⟨w', ?_, hmeta, ?_⟩
    · simp only [ClientSync, hscan]
      exact hrun
    · rw [hidx, hall]
      rfl
  · intro d fLoc cur hnodup hd hdl hloc hcur hver
    obtain ⟨st2, hscan2, hname, hnd⟩ := scanDir_returns GetBlockHashString client fuel
      localIndexFileMetaMap w.files list
      { clientMetaMap := GoMap.empty, clientBlockMap := GoMap.empty,
        allFileMetaMap := allFileMetaMap } hB hfuel (fun k c h => by cases h) hnodup
    rw [hscan] at hscan2
    cases hscan2
    obtain ⟨w', hrun, hlook, hline⟩ := reconcileAll_tombstone GetBlockHashString ctx
      st.clientMetaMap st.clientBlockMap localIndexFileMetaMap
      (RPCClient.GetFileInfoMap ctx w.metaStore) hname
      (remoteKeys.foldl addName st.allFileMetaMap) (foldl_addName_nodup _ _ hnd)
      w mp bmp hms hbs (fun k _ h => by rw [hrem]; exact h) d fLoc cur
      (by
        rw [mem_foldl_addName, hall, mem_foldl_addName]
        exact Or.inl (Or.inl hd))
      (by rw [hout d (Or.inl hdl)]; rfl) hloc hcur hver
    refine ⟨w', ?_, hlook, hline⟩
    simp only [ClientSync, hscan]
    exact hrun

/-- Witness of `ClientSync_second_run`: on `sampleWorld`, where `a.txt` is
unchanged since version 1, the run leaves the store as it is and writes the
line of version 1; on `pulledWorld`, whose index read from its line holds the
tombstone of `d.txt` at version 5, the run moves the store to version 6. -/
theorem ClientSync_second_run_witness :
    (∃ w', ClientSync sampleHash liveContext sampleClient 4 ["a.txt", "index.txt"] baseIndex
        ["a.txt"] ["a.txt"] sampleWorld = some w' ∧
      w'.metaStore = sampleWorld.metaStore ∧ w'.indexLines = ["a.txt,1,h1\n"]) ∧
    ∃ w', ClientSync sampleHash liveContext sampleClient 4 ["index.txt"]
        (LoadMetaFromMetaFile pulledWorld.indexLines).1
        (LoadMetaFromMetaFile pulledWorld.indexLines).2 ["d.txt"] pulledWorld = some w' ∧
      w'.metaStore.lookup "d.txt" =
        some { Filename := "d.txt", Version := 6, BlockHashList := some ["0"] } ∧
      "d.txt,6,0\n" ∈ w'.indexLines :=
  ⟨(ClientSync_second_run sampleHash liveContext sampleClient 4 ["a.txt", "index.txt"]
      baseIndex ["a.txt"] ["a.txt"] sampleWorld (GoMap.empty.set "a.txt" sampleRecord)
      GoMap.empty (by decide) (by decide) rfl rfl).1 (by decide)
      (by
        intro k hk hne
        have hka : k = "a.txt" := by
          rcases List.mem_cons.mp hk with h | h
          · exact h
          · exact absurd (List.mem_singleton.mp h) hne
        subst hka
        exact ⟨sampleRecord, sampleRecord, some ["h1"], _, rfl, rfl, rfl, rfl, rfl⟩),
   (ClientSync_second_run sampleHash liveContext sampleClient 4 ["index.txt"]
      (LoadMetaFromMetaFile pulledWorld.indexLines).1
      (LoadMetaFromMetaFile pulledWorld.indexLines).2 ["d.txt"] pulledWorld
      (GoMap.empty.set "d.txt" tombstoneRecord) GoMap.empty (by decide) (by decide) rfl rfl).2
      "d.txt" tombstoneRecord tombstoneRecord (by decide) (by decide) (by decide)
      (by decide) rfl rfl⟩

/-! ## Theorems: two calls of `UpdateFile` at the same time -/

/-- The two steps of a call, run one after the other, are `UpdateFile`. -/
theorem callAlone_eq_UpdateFile (m : MetaStore) (ctx : Context) (fileMetaData : FileMetaData) :
    m.callAlone fileMetaData = m.UpdateFile ctx fileMetaData := by
  unfold MetaStore.callAlone MetaStore.UpdateFile
  simp only [MetaStore.callStep, MetaStore.checkStep]
  cases hl : m.lookup fileMetaData.Filename with
  | none =>
    simp only [MetaStore.callStep, MetaStore.writeStep]
    cases m.assign fileMetaData.Filename fileMetaData <;> rfl
  | some cur =>
    by_cases h1 : int32Sub fileMetaData.Version cur.Version = 1
    · simp only [h1, if_true, MetaStore.callStep, MetaStore.writeStep]
      cases m.assign fileMetaData.Filename fileMetaData <;> rfl
    · simp only [h1, if_false, MetaStore.callStep]

/-- C14 fails on the code: `UpdateFile` takes no lock, so its read of the map
and its write can be separated by the steps of another call. On `sampleStore`,
which holds `a.txt` at version 1, two calls carry version 2 for `a.txt`. Under
the schedule in which both calls read and compare before either writes, both
calls return version 2 with a nil error, and the store ends with the second
call's record: the first call's update is lost. Under the schedule in which the
first call runs to its end before the second starts, the second call is
rejected. -/
theorem concurrent_UpdateFile_both_accepted :
    (runTwoCalls
        { Filename := "a.txt", Version := 2, BlockHashList := some ["h1"] }
        { Filename := "a.txt", Version := 2, BlockHashList := some ["h2"] }
        [false, true, false, true]
        { store := sampleStore, first := CallPoint.start, second := CallPoint.start }).map
      (fun s => (s.first, s.second, s.store.lookup "a.txt")) =
      some (CallPoint.returned (some { Version := 2 }) none,
            CallPoint.returned (some { Version := 2 }) none,
            some { Filename := "a.txt", Version := 2, BlockHashList := some ["h2"] }) ∧
    (runTwoCalls
        { Filename := "a.txt", Version := 2, BlockHashList := some ["h1"] }
        { Filename := "a.txt", Version := 2, BlockHashList := some ["h2"] }
        [false, false, true, true]
        { store := sampleStore, first := CallPoint.start, second := CallPoint.start }).map
      (fun s => (s.first, s.second, s.store.lookup "a.txt")) =
      some (CallPoint.returned (some { Version := 2 }) none,
            CallPoint.returned none (some GoError.incorrectVersion),
            some { Filename := "a.txt", Version := 2, BlockHashList := some ["h1"] }) := by
  constructor <;> decide

end Surfstore
